import Mathlib

/-!
# Verification of the n-jigsaw generator (`solve.py`)

A shallow embedding of the jigsaw-puzzle generator: the grid model,
adjacency connector, shuffle engine, merge builder, group collapse,
uniqueness checker, and the generation loop.

Conventions of the embedding:
* Edges live in an arena (`Board.edges : List Edge`); the Python object
  references `connection : Edge | None` and `merges : set[Edge]` become the
  arena indices `connection : Option Nat` and `merges : List Nat`.
  Python `set`s are modelled as duplicate-free lists in insertion order
  (CPython's set iteration order is unspecified; all order-sensitive results
  proved here are robust to that choice, and concrete evaluations fix it).
* Python statements that can raise (attribute errors on `None`,
  `KeyError` on dict lookups, failing `assert`s) are modelled by `Option`,
  with `none` for the raising run.
* `random.shuffle` and `random.choice` become parameters: the shuffled
  lists are passed in (theorems relate them by `List.Perm` to the lists the
  code builds), and rotation choices are an input stream `Nat → Rotation`.
* The worklist loops of `collapse_edges` run on an explicit fuel that is
  computed from the board so that kernel evaluation is possible; fuel
  sufficiency for well-formed boards is proved separately.
-/

namespace NJigsaw

inductive Shape where
  | Flat
  | Knob
  | Socket
deriving DecidableEq, Repr

inductive Rotation where
  | R0
  | R90
  | R180
  | R270
deriving DecidableEq, Repr

def Rotation.val : Rotation → Nat
  | .R0 => 0
  | .R90 => 1
  | .R180 => 2
  | .R270 => 3

inductive Direction where
  | Up
  | Right
  | Down
  | Left
deriving DecidableEq, Repr

def Direction.val : Direction → Nat
  | .Up => 0
  | .Right => 1
  | .Down => 2
  | .Left => 3

def Direction.delta : Direction → Int × Int
  | .Up => (-1, 0)
  | .Down => (1, 0)
  | .Right => (0, 1)
  | .Left => (0, -1)

def Direction.inverse : Direction → Direction
  | .Up => .Down
  | .Down => .Up
  | .Right => .Left
  | .Left => .Right

/-- Iteration order of `for direction in Direction` (enum declaration order). -/
def Direction.all : List Direction := [.Up, .Right, .Down, .Left]

/-- A `(row, column)` pair; out-of-bounds neighbor positions occur, so `Int`. -/
abbrev Position := Int × Int

structure Edge where
  group : Option Nat := none
  shape : Shape := .Flat
  connection : Option Nat := none
  merges : List Nat := []
deriving DecidableEq, Repr

instance : Inhabited Edge := ⟨{}⟩

structure Piece where
  id : Nat
  edges : Nat
  rotation : Rotation
deriving DecidableEq, Repr

instance : Inhabited Piece := ⟨⟨0, 0, .R0⟩⟩

structure Board where
  width : Nat
  height : Nat
  pieces : List Piece
  edges : List Edge
deriving DecidableEq, Repr

/-- Rotation chosen for the piece at grid cell `(i, j)` in `Board.__post_init__`. -/
def initRotation (W H i j : Nat) : Rotation :=
  if i = 0 then .R270
  else if j = W - 1 then .R180
  else if i = H - 1 then .R90
  else .R0

/-- `Board(W, H)`: `W*H` pieces in row-major order (id `k`, edge base `4*k`)
and `4*W*H` default edges. -/
def Board.init (W H : Nat) : Board :=
  { width := W
    height := H
    pieces := (List.range (H * W)).map fun k =>
      { id := k, edges := 4 * k, rotation := initRotation W H (k / W) (k % W) }
    edges := (List.range (4 * (H * W))).map fun _ => {} }

def Board.is_adjacent (_b : Board) (f t : Position) : Bool :=
  (f.1 - t.1).natAbs + (f.2 - t.2).natAbs = 1

def Board.in_bounds (b : Board) (p : Position) : Bool :=
  decide (0 ≤ p.1) && decide (p.1 < (b.height : Int)) &&
    decide (0 ≤ p.2) && decide (p.2 < (b.width : Int))

def Board.get_piece_index (b : Board) (p : Position) : Int :=
  p.1 * (b.width : Int) + p.2

def Board.getPiece (b : Board) (p : Position) : Piece :=
  b.pieces.getD (b.get_piece_index p).toNat default

/-- `get_edge_index`: the arena index of the edge slot facing `d` at position
`p`, through the piece's rotation. -/
def Board.get_edge_index (b : Board) (p : Position) (d : Direction) : Nat :=
  let piece := b.getPiece p
  piece.edges + (piece.rotation.val + d.val) % 4

/-- The `connection` field of the edge at arena index `s`. -/
def Board.connAt (b : Board) (s : Nat) : Option Nat :=
  (b.edges.getD s default).connection

def Board.connect_edges (b : Board) (fi ti : Nat) : Bool × Board :=
  if fi = ti then (false, b)
  else
    let fe := b.edges.getD fi default
    let te := b.edges.getD ti default
    let fe1 := { fe with connection := some ti }
    let te1 := { te with connection := some fi }
    (true, { b with edges := (b.edges.set fi fe1).set ti te1 })

/-- `connect_pieces`; `none` models a failing `assert` (non-adjacent call or
the unreachable final branch). -/
def Board.connect_pieces (b : Board) (f t : Position) : Option (Bool × Board) :=
  if b.is_adjacent f t = false then none
  else if f.1 < t.1 then
    some (b.connect_edges (b.get_edge_index f .Down) (b.get_edge_index t .Up))
  else if f.1 > t.1 then
    some (b.connect_edges (b.get_edge_index f .Up) (b.get_edge_index t .Down))
  else if f.2 < t.2 then
    some (b.connect_edges (b.get_edge_index f .Right) (b.get_edge_index t .Left))
  else if f.2 > t.2 then
    some (b.connect_edges (b.get_edge_index f .Left) (b.get_edge_index t .Right))
  else none

/-- The `(position, direction)` pairs visited by the nested loops of
`connect_adjacent_edges` and `merge_edges`, in program order. -/
def Board.taskList (b : Board) : List (Position × Direction) :=
  (List.range b.height).flatMap fun i =>
    (List.range b.width).flatMap fun j =>
      Direction.all.map fun d => (((i : Int), (j : Int)), d)

def connectStep (st : Option (Bool × Board)) (task : Position × Direction) :
    Option (Bool × Board) :=
  match st with
  | none => none
  | some (false, b) => some (false, b)
  | some (true, b) =>
    let p := task.1
    let d := task.2
    let t := (p.1 + d.delta.1, p.2 + d.delta.2)
    if b.in_bounds t = false then some (true, b)
    else b.connect_pieces p t

def Board.connect_adjacent_edges (b : Board) : Option (Bool × Board) :=
  b.taskList.foldl connectStep (some (true, b))

def Board.swap_pieces (b : Board) (f t : Position) : Board :=
  let fpi := (b.get_piece_index f).toNat
  let tpi := (b.get_piece_index t).toNat
  let fp := b.pieces.getD fpi default
  let tp := b.pieces.getD tpi default
  { b with pieces := (b.pieces.set fpi tp).set tpi fp }

/-- Count of unconnected edge slots at a position (the `none_counts` sum). -/
def Board.unconnectedCount (b : Board) (p : Position) : Nat :=
  (Direction.all.filter fun d => b.connAt (b.get_edge_index p d) = none).length

/-- The rotation exchange `from_piece.rotation, to_piece.rotation = ...` that
`swap` performs when the positions have border edges. -/
def Board.swapRotations (b : Board) (f t : Position) : Board :=
  let fpi := (b.get_piece_index f).toNat
  let tpi := (b.get_piece_index t).toNat
  let fp := b.pieces.getD fpi default
  let tp := b.pieces.getD tpi default
  let fp1 := { fp with rotation := tp.rotation }
  let tp1 := { tp with rotation := fp.rotation }
  { b with pieces := (b.pieces.set fpi fp1).set tpi tp1 }

def Board.swap (b : Board) (f t : Position) : Bool × Board :=
  let fc := b.unconnectedCount f
  let tc := b.unconnectedCount t
  if fc ≠ tc then (false, b)
  else
    let b1 := if 0 < fc then b.swapRotations f t else b
    (true, b1.swap_pieces f t)

/-- The border-phase position list of `shuffle` (both border rows, then both
border columns, skipping `i == j`), in program order. -/
def Board.borderPositions (b : Board) : List Position :=
  (([0, (b.height : Int) - 1]).flatMap fun i =>
    ((((List.range (b.width - 1 - 1)).map fun (k : Nat) => ((k : Int) + 1)).filter
      fun j => ¬i = j).map fun j => ((i, j) : Position))) ++
  (([0, (b.width : Int) - 1]).flatMap fun j =>
    ((((List.range (b.height - 1 - 1)).map fun (k : Nat) => ((k : Int) + 1)).filter
      fun i => ¬i = j).map fun i => ((i, j) : Position)))

/-- The interior-phase position list of `shuffle`, in program order. -/
def Board.centerPositions (b : Board) : List Position :=
  (List.range (b.height - 1 - 1)).flatMap fun (a : Nat) =>
    (List.range (b.width - 1 - 1)).map fun (c : Nat) =>
      ((((a : Int) + 1), ((c : Int) + 1)) : Position)

def Board.setRotation (b : Board) (p : Position) (r : Rotation) : Board :=
  let i := (b.get_piece_index p).toNat
  { b with pieces := b.pieces.set i { b.pieces.getD i default with rotation := r } }

/-- The border-phase triple loop; `none` models a failing `assert self.swap(..)`. -/
def Board.swapTriples : Board → List Position → Option Board
  | bd, a :: b2 :: c :: rest =>
    let r1 := bd.swap a b2
    if r1.1 = false then none
    else
      let r2 := r1.2.swap a c
      if r2.1 = false then none
      else r2.2.swapTriples rest
  | bd, _ => some bd

/-- The interior-phase triple loop: as `swapTriples`, then the piece now at the
triple's first position gets the next rotation from the random stream. -/
def Board.swapTriplesRot (rots : Nat → Rotation) : Board → Nat → List Position → Option Board
  | bd, k, a :: b2 :: c :: rest =>
    let r1 := bd.swap a b2
    if r1.1 = false then none
    else
      let r2 := r1.2.swap a c
      if r2.1 = false then none
      else Board.swapTriplesRot rots (r2.2.setRotation a (rots k)) (k + 1) rest
  | bd, _, _ => some bd

/-- `shuffle`, with the randomness made explicit: `bp` and `cp` are the
border/interior lists after `random.shuffle` (any permutations of
`borderPositions` / `centerPositions`), `rots` the `random.choice` stream. -/
def Board.shuffle (b : Board) (bp cp : List Position) (rots : Nat → Rotation) :
    Option Board :=
  match b.swapTriples bp with
  | none => none
  | some b1 => b1.swapTriplesRot rots 0 cp

/-- `set.add` on a merge list: append if not present. -/
def Edge.addMerge (e : Edge) (i : Nat) : Edge :=
  if i ∈ e.merges then e else { e with merges := e.merges ++ [i] }

def mergeStep (st : Option Board) (task : Position × Direction) : Option Board :=
  match st with
  | none => none
  | some bd =>
    let p := task.1
    let d := task.2
    let t := (p.1 + d.delta.1, p.2 + d.delta.2)
    if bd.in_bounds t = false then some bd
    else
      let fei := bd.get_edge_index p d
      let aei := bd.get_edge_index t d.inverse
      match (bd.edges.getD aei default).connection with
      | none => none
      | some tei =>
        let e1 := bd.edges.getD fei default
        let bd1 := { bd with edges := bd.edges.set fei (e1.addMerge tei) }
        let e2 := bd1.edges.getD tei default
        some { bd1 with edges := bd1.edges.set tei (e2.addMerge fei) }

def Board.merge_edges (b : Board) : Option Board :=
  b.taskList.foldl mergeStep (some b)

/-- First-match association-list lookup (Python dict read, by key). -/
def alookup {α : Type} : List (Nat × α) → Nat → Option α
  | [], _ => none
  | (k, v) :: rest, key => if k = key then some v else alookup rest key

/-- The merge-component worklist of `collapse_edges` (stack semantics:
`queue.pop()` takes the last element, `queue += merges` appends). -/
def groupDFS (b : Board) : Nat → List Nat → List Nat → Option (List Nat)
  | 0, _, _ => none
  | _ + 1, [], grp => some grp
  | fuel + 1, e :: stack, grp =>
    if e ∈ grp then groupDFS b fuel stack grp
    else groupDFS b fuel (((b.edges.getD e default).merges).reverse ++ stack) (grp ++ [e])

/-- Fuel that always suffices for `groupDFS` started from one edge. -/
def groupFuel (b : Board) : Nat :=
  b.edges.length + (b.edges.map fun e => e.merges.length).sum + 2

/-- One step of the equivalence-closure scan `for edge in self.edges`. -/
def buildGroupsStep (b : Board) (st : Option (List (Nat × Nat) × List (List Nat)))
    (ei : Nat) : Option (List (Nat × Nat) × List (List Nat)) :=
  match st with
  | none => none
  | some (egm, groups) =>
    if (b.edges.getD ei default).connection = none then some (egm, groups)
    else if (alookup egm ei).isSome then some (egm, groups)
    else
      match groupDFS b (groupFuel b) [ei] [] with
      | none => none
      | some comp =>
        some ((comp.map fun x => (x, groups.length)) ++ egm, groups ++ [comp])

/-- `group_connections[k].add(v)` on an insertion-ordered association list. -/
def addGConn : List (Nat × List Nat) → Nat → Nat → List (Nat × List Nat)
  | [], k, v => [(k, [v])]
  | (k0, vs) :: rest, k, v =>
    if k0 = k then (k0, if v ∈ vs then vs else vs ++ [v]) :: rest
    else (k0, vs) :: addGConn rest k v

/-- One step of the group-connection scan; `none` models a `KeyError`. -/
def buildGConnStep (b : Board) (egm : List (Nat × Nat))
    (st : Option (List (Nat × List Nat))) (ei : Nat) :
    Option (List (Nat × List Nat)) :=
  match st with
  | none => none
  | some g =>
    match (b.edges.getD ei default).connection with
    | none => some g
    | some ci =>
      match alookup egm ei, alookup egm ci with
      | some g1, some g2 => some (addGConn g g1 g2)
      | _, _ => none

/-- The depth-tagged traversal of one component of the group graph.
Returns the `(depth, group)` pairs in visit order. -/
def bipartDFS (gconn : List (Nat × List Nat)) (ggm : List (Nat × Nat)) :
    Nat → List (Nat × Nat) → List Nat → List (Nat × Nat) → Option (List (Nat × Nat))
  | 0, _, _, _ => none
  | _ + 1, [], _, layers => some layers
  | fuel + 1, (gid, depth) :: stack, seen, layers =>
    if (alookup ggm gid).isSome then bipartDFS gconn ggm fuel stack seen layers
    else if gid ∈ seen then bipartDFS gconn ggm fuel stack seen layers
    else
      match alookup gconn gid with
      | none => none
      | some nbrs =>
        bipartDFS gconn ggm fuel ((nbrs.map fun c => (c, depth + 1)).reverse ++ stack)
          (seen ++ [gid]) (layers ++ [(depth, gid)])

/-- Fuel that always suffices for `bipartDFS` started from one group. -/
def bipartFuel (gconn : List (Nat × List Nat)) : Nat :=
  gconn.length + (gconn.map fun kv => kv.2.length).sum + 2

/-- One iteration of `for group_id in group_connections.keys()`: traverse the
component, split the layers into even/odd parity, fail on a non-empty
intersection, otherwise record the Knob and Socket group-groups. -/
def bipartLoopStep (gconn : List (Nat × List Nat))
    (st : Option (Bool × List (Nat × Nat) × List (List Nat × Shape))) (gid : Nat) :
    Option (Bool × List (Nat × Nat) × List (List Nat × Shape)) :=
  match st with
  | none => none
  | some (false, ggm, ggs) => some (false, ggm, ggs)
  | some (true, ggm, ggs) =>
    if (alookup ggm gid).isSome then some (true, ggm, ggs)
    else
      match bipartDFS gconn ggm (bipartFuel gconn) [(gid, 0)] [] [] with
      | none => none
      | some layers =>
        let evens := (layers.filter fun x => x.1 % 2 = 0).map Prod.snd
        let odds := (layers.filter fun x => x.1 % 2 = 1).map Prod.snd
        if evens.any fun g => g ∈ odds then some (false, ggm, ggs)
        else
          let ggm1 := (evens.map fun g => (g, ggs.length)) ++ ggm
          let ggm2 := (odds.map fun g => (g, ggs.length + 1)) ++ ggm1
          some (true, ggm2, ggs ++ [(evens, Shape.Knob), (odds, Shape.Socket)])

/-- Write `group := gg_id / 2` and the shape onto every edge of one group. -/
def writeGroupEdges (ggHalf : Nat) (shape : Shape) : Board → List Nat → Board
  | bd, [] => bd
  | bd, ei :: rest =>
    let e1 := { bd.edges.getD ei default with group := some ggHalf, shape := shape }
    writeGroupEdges ggHalf shape { bd with edges := bd.edges.set ei e1 } rest

/-- Write one group-group's groups; `none` models `KeyError` on `groups[g_id]`. -/
def writeGList (groups : List (List Nat)) (half : Nat) (shape : Shape) :
    Board → List Nat → Option Board
  | bd, [] => some bd
  | bd, g :: rest =>
    match groups.get? g with
    | none => none
    | some comp => writeGList groups half shape (writeGroupEdges half shape bd comp) rest

/-- The final write loop `for gg_id, g_ids in group_groups.items()`. -/
def writeGG (groups : List (List Nat)) : Board → Nat → List (List Nat × Shape) → Option Board
  | bd, _, [] => some bd
  | bd, ggId, (gids, shape) :: rest =>
    match writeGList groups (ggId / 2) shape bd gids with
    | none => none
    | some bd1 => writeGG groups bd1 (ggId + 1) rest

/-- `collapse_edges`: merge-equivalence closure, group graph, parity split,
and the final shape/group-id assignment. `some (false, _)` is the
non-bipartite report (`return False`); `none` is a raising run. -/
def Board.collapse_edges (b : Board) : Option (Bool × Board) :=
  match (List.range b.edges.length).foldl (buildGroupsStep b) (some ([], [])) with
  | none => none
  | some (egm, groups) =>
    match (List.range b.edges.length).foldl (buildGConnStep b egm) (some []) with
    | none => none
    | some gconn =>
      match (gconn.map Prod.fst).foldl (bipartLoopStep gconn) (some (true, [], [])) with
      | none => none
      | some (false, _, _) => some (false, b)
      | some (true, _, ggs) =>
        match writeGG groups b 0 ggs with
        | none => none
        | some b2 => some (true, b2)

/-- The `(group, shape)` 4-tuple of one piece in `check_all_unique`:
the slice `self.edges[piece.edges : piece.edges + EDGE_COUNT]`, i.e. the
piece's physical slot order. -/
def pieceTuple (b : Board) (p : Piece) : List (Option Nat × Shape) :=
  ((b.edges.drop p.edges).take 4).map fun e => (e.group, e.shape)

def checkGo (b : Board) : List Piece → List (List (Option Nat × Shape)) → Bool
  | [], _ => true
  | p :: rest, seen =>
    let t := pieceTuple b p
    if t ∈ seen then false else checkGo b rest (t :: seen)

/-- `check_all_unique`: fails exactly when a piece tuple repeats. Pure. -/
def Board.check_all_unique (b : Board) : Bool := checkGo b b.pieces []

/-- One generation attempt of `main`'s loop, with the randomness explicit.
Returns (final board, result of `collapse_edges`, result of
`check_all_unique`); `main` accepts iff the last flag is `true` (the results
of `connect_adjacent_edges` and `collapse_edges` are ignored by `main`). -/
def attempt (W H : Nat) (bp cp : List Position) (rots : Nat → Rotation) :
    Option (Board × Bool × Bool) :=
  match (Board.init W H).connect_adjacent_edges with
  | none => none
  | some (_, b1) =>
    match b1.shuffle bp cp rots with
    | none => none
    | some b2 =>
      match b2.merge_edges with
      | none => none
      | some b3 =>
        match b3.collapse_edges with
        | none => none
        | some (c, b4) => some (b4, c, b4.check_all_unique)

/-- The two boolean outcomes of an attempt. -/
def attemptFlags (W H : Nat) (bp cp : List Position) (rots : Nat → Rotation) :
    Option (Bool × Bool) :=
  (attempt W H bp cp rots).map fun r => r.2

/-- The board produced by `Board(W, H)` followed by `connect_adjacent_edges`. -/
def connBoard (W H : Nat) : Board :=
  match (Board.init W H).connect_adjacent_edges with
  | some (_, b) => b
  | none => Board.init W H

end NJigsaw

namespace NJigsaw

/-! ## The border-phase position list (C4) -/

theorem mem_intRangeSucc (n : Nat) (x : Int) :
    x ∈ (List.range n).map (fun (k : Nat) => ((k : Int) + 1)) ↔ 1 ≤ x ∧ x ≤ (n : Int) := by
  simp only [List.mem_map, List.mem_range]
  constructor
  · rintro ⟨k, hk, rfl⟩
    omega
  · rintro ⟨h1, h2⟩
    exact ⟨(x - 1).toNat, by omega, by omega⟩

theorem nodup_intRangeSucc (n : Nat) :
    ((List.range n).map (fun (k : Nat) => ((k : Int) + 1))).Nodup := by
  refine List.Nodup.map (fun a b hab => ?_) (List.nodup_range n)
  omega

/-- A border, non-corner position of the `W` by `H` grid (spec wording):
in bounds, on one of the four border lines, and not one of the four corners. -/
def isBorderNonCorner (W H : Nat) (p : Position) : Prop :=
  (0 ≤ p.1 ∧ p.1 < (H : Int) ∧ 0 ≤ p.2 ∧ p.2 < (W : Int)) ∧
    (p.1 = 0 ∨ p.1 = (H : Int) - 1 ∨ p.2 = 0 ∨ p.2 = (W : Int) - 1) ∧
    ¬((p.1 = 0 ∨ p.1 = (H : Int) - 1) ∧ (p.2 = 0 ∨ p.2 = (W : Int) - 1))

instance (W H : Nat) (p : Position) : Decidable (isBorderNonCorner W H p) := by
  unfold isBorderNonCorner
  infer_instance

theorem mem_borderPositions (W H : Nat) (a b : Int) :
    ((a, b) : Position) ∈ (Board.init W H).borderPositions ↔
      (((a = 0 ∨ a = (H : Int) - 1) ∧ 1 ≤ b ∧ b ≤ (W : Int) - 2 ∧ a ≠ b) ∨
        ((b = 0 ∨ b = (W : Int) - 1) ∧ 1 ≤ a ∧ a ≤ (H : Int) - 2 ∧ a ≠ b)) := by
  simp only [Board.borderPositions, Board.init, List.mem_append, List.mem_flatMap,
    List.mem_map, List.mem_filter, List.mem_range, List.mem_cons, List.not_mem_nil,
    or_false, Prod.mk.injEq, decide_eq_true_eq]
  constructor
  · rintro (⟨i, hi, j, ⟨⟨k, hk, rfl⟩, hne⟩, rfl, rfl⟩ | ⟨j, hj, i, ⟨⟨k, hk, rfl⟩, hne⟩, rfl, rfl⟩)
    · left
      exact ⟨hi, by omega, by omega, hne⟩
    · right
      exact ⟨hj, by omega, by omega, hne⟩
  · rintro (⟨h1, h2, h3, h4⟩ | ⟨h1, h2, h3, h4⟩)
    · left
      exact ⟨a, h1, b, ⟨⟨(b - 1).toNat, by omega, by omega⟩, h4⟩, rfl, rfl⟩
    · right
      exact ⟨b, h1, a, ⟨⟨(a - 1).toNat, by omega, by omega⟩, h4⟩, rfl, rfl⟩

theorem mem_centerPositions (W H : Nat) (a b : Int) :
    ((a, b) : Position) ∈ (Board.init W H).centerPositions ↔
      (1 ≤ a ∧ a ≤ (H : Int) - 2 ∧ 1 ≤ b ∧ b ≤ (W : Int) - 2) := by
  simp only [Board.centerPositions, Board.init, List.mem_flatMap, List.mem_map,
    List.mem_range, Prod.mk.injEq]
  constructor
  · rintro ⟨x, hx, y, hy, rfl, rfl⟩
    omega
  · rintro ⟨h1, h2, h3, h4⟩
    exact ⟨(a - 1).toNat, by omega, (b - 1).toNat, by omega, by omega, by omega⟩

theorem borderPositions_nodup (W H : Nat) (hW : 1 < W) (hH : 1 < H) :
    (Board.init W H).borderPositions.Nodup := by
  have hrow : ∀ (i : Int) (P : Int → Bool),
      ((((List.range (W - 1 - 1)).map fun (k : Nat) => ((k : Int) + 1)).filter P).map
        fun j => ((i, j) : Position)).Nodup := fun i P =>
    List.Nodup.map (fun x y hxy => by simpa using congrArg Prod.snd hxy)
      (List.Nodup.filter P (nodup_intRangeSucc _))
  have hcol : ∀ (j : Int) (P : Int → Bool),
      ((((List.range (H - 1 - 1)).map fun (k : Nat) => ((k : Int) + 1)).filter P).map
        fun i => ((i, j) : Position)).Nodup := fun j P =>
    List.Nodup.map (fun x y hxy => by simpa using congrArg Prod.fst hxy)
      (List.Nodup.filter P (nodup_intRangeSucc _))
  have memrow : ∀ (i : Int) (P : Int → Bool) (p : Position),
      p ∈ ((((List.range (W - 1 - 1)).map fun (k : Nat) => ((k : Int) + 1)).filter P).map
        fun j => ((i, j) : Position)) → p.1 = i ∧ 1 ≤ p.2 ∧ p.2 ≤ (W : Int) - 2 := by
    intro i P p hp
    simp only [List.mem_map, List.mem_filter, List.mem_range] at hp
    obtain ⟨j, ⟨⟨k, hk, rfl⟩, _⟩, rfl⟩ := hp
    refine ⟨rfl, ?_, ?_⟩ <;> simp only [] <;> omega
  have memcol : ∀ (j : Int) (P : Int → Bool) (p : Position),
      p ∈ ((((List.range (H - 1 - 1)).map fun (k : Nat) => ((k : Int) + 1)).filter P).map
        fun i => ((i, j) : Position)) → p.2 = j ∧ 1 ≤ p.1 ∧ p.1 ≤ (H : Int) - 2 := by
    intro j P p hp
    simp only [List.mem_map, List.mem_filter, List.mem_range] at hp
    obtain ⟨i, ⟨⟨k, hk, rfl⟩, _⟩, rfl⟩ := hp
    refine ⟨rfl, ?_, ?_⟩ <;> simp only [] <;> omega
  simp only [Board.borderPositions, Board.init, List.flatMap_cons, List.flatMap_nil,
    List.append_nil]
  rw [List.nodup_append]
  refine ⟨?_, ?_, ?_⟩
  · rw [List.nodup_append]
    refine ⟨hrow _ _, hrow _ _, fun p hp hp' => ?_⟩
    have h1 := (memrow _ _ _ hp).1
    have h2 := (memrow _ _ _ hp').1
    omega
  · rw [List.nodup_append]
    refine ⟨hcol _ _, hcol _ _, fun p hp hp' => ?_⟩
    have h1 := (memcol _ _ _ hp).1
    have h2 := (memcol _ _ _ hp').1
    omega
  · intro p hp hp'
    rw [List.mem_append] at hp hp'
    have h1 : 1 ≤ p.2 ∧ p.2 ≤ (W : Int) - 2 := by
      rcases hp with h | h
      · exact (memrow _ _ _ h).2
      · exact (memrow _ _ _ h).2
    have h2 : p.2 = 0 ∨ p.2 = (W : Int) - 1 := by
      rcases hp' with h | h
      · exact Or.inl (memcol _ _ _ h).1
      · exact Or.inr (memcol _ _ _ h).1
    omega

/-- C4 counterexample: on the 3 by 2 board, `(1, 1)` is a border, non-corner
position (bottom row, middle column) but the border phase of `shuffle` does
not collect it — the `i == j` guard drops it, so the claimed "every border,
non-corner position appears exactly once" fails. -/
theorem c4_missing_border_position :
    isBorderNonCorner 3 2 ((1 : Int), (1 : Int)) ∧
      ((1 : Int), (1 : Int)) ∉ (Board.init 3 2).borderPositions := by
  constructor
  · decide
  · decide

/-- C4 (amended): for `W, H > 1` the border-phase list of `shuffle` contains
exactly the border, non-corner positions whose row index differs from their
column index (the `i == j` guard additionally skips the on-diagonal border
positions `(H-1, H-1)` and `(W-1, W-1)` when they are border, non-corner),
each exactly once; no corner or interior position appears. -/
theorem c4_border_phase_positions (W H : Nat) (hW : 1 < W) (hH : 1 < H) :
    (∀ p : Position, p ∈ (Board.init W H).borderPositions ↔
        (isBorderNonCorner W H p ∧ p.1 ≠ p.2)) ∧
      (Board.init W H).borderPositions.Nodup := by
  constructor
  · rintro ⟨a, b⟩
    rw [mem_borderPositions]
    unfold isBorderNonCorner
    constructor <;> intro h <;>
      [rcases h with ⟨h1, h2, h3, h4⟩ | ⟨h1, h2, h3, h4⟩;
        rcases h with ⟨⟨hb, ho, hc⟩, hne⟩] <;>
      simp only [ne_eq] at * <;> omega
  · exact borderPositions_nodup W H hW hH

theorem c4_witness :
    ((((0 : Int), (1 : Int)) : Position) ∈ (Board.init 5 2).borderPositions ↔
        (isBorderNonCorner 5 2 ((0 : Int), (1 : Int)) ∧
          ((((0 : Int), (1 : Int)) : Position).1 ≠ (((0 : Int), (1 : Int)) : Position).2))) ∧
      (Board.init 5 2).borderPositions.Nodup :=
  ⟨(c4_border_phase_positions 5 2 (by decide) (by decide)).1 _,
    (c4_border_phase_positions 5 2 (by decide) (by decide)).2⟩

/-! ## The 2 by 2 board: shuffle is a no-op (C10) -/

/-- C10: on any 2 by 2 board both candidate position lists of `shuffle` are
empty (`range(1, 1)` is empty in all four loops), so `shuffle` succeeds and
returns the board unchanged: every piece keeps its position and rotation, and
the accepted "Final" arrangement of a 2 by 2 board equals the "Initial" one. -/
theorem c10_shuffle_2x2_noop (b : Board) (hW : b.width = 2) (hH : b.height = 2)
    (bp cp : List Position) (rots : Nat → Rotation)
    (hbp : bp.Perm b.borderPositions) (hcp : cp.Perm b.centerPositions) :
    b.borderPositions = [] ∧ b.centerPositions = [] ∧
      b.shuffle bp cp rots = some b := by
  have hb : b.borderPositions = [] := by
    unfold Board.borderPositions
    rw [hW, hH]
    rfl
  have hc : b.centerPositions = [] := by
    unfold Board.centerPositions
    rw [hW, hH]
    rfl
  have hbp2 : bp = [] := by
    rw [hb] at hbp
    exact hbp.eq_nil
  have hcp2 : cp = [] := by
    rw [hc] at hcp
    exact hcp.eq_nil
  subst hbp2 hcp2
  exact ⟨hb, hc, rfl⟩

theorem c10_witness :
    (connBoard 2 2).borderPositions = [] ∧ (connBoard 2 2).centerPositions = [] ∧
      (connBoard 2 2).shuffle [] [] (fun _ => Rotation.R0) = some (connBoard 2 2) :=
  c10_shuffle_2x2_noop (connBoard 2 2) (by decide) (by decide) [] []
    (fun _ => Rotation.R0) (List.Perm.refl _) (List.Perm.refl _)

/-! ## Swap failure leaves the board unchanged (C8) -/

/-- C8: whenever the two positions of `swap` have different unconnected-edge
counts, `swap` returns failure and the board — in particular the piece
identity and rotation at both positions — is exactly the one it was given. -/
theorem c8_swap_mismatch_fails (b : Board) (f t : Position)
    (h : b.unconnectedCount f ≠ b.unconnectedCount t) :
    b.swap f t = (false, b) ∧ (b.swap f t).2.getPiece f = b.getPiece f ∧
      (b.swap f t).2.getPiece t = b.getPiece t := by
  have hs : b.swap f t = (false, b) := by
    unfold Board.swap
    rw [if_pos h]
  exact ⟨hs, by rw [hs], by rw [hs]⟩

theorem c8_witness :
    (connBoard 3 2).swap ((0 : Int), (0 : Int)) ((0 : Int), (1 : Int)) =
        (false, connBoard 3 2) ∧
      ((connBoard 3 2).swap ((0 : Int), (0 : Int)) ((0 : Int), (1 : Int))).2.getPiece
          ((0 : Int), (0 : Int)) = (connBoard 3 2).getPiece ((0 : Int), (0 : Int)) ∧
      ((connBoard 3 2).swap ((0 : Int), (0 : Int)) ((0 : Int), (1 : Int))).2.getPiece
          ((0 : Int), (1 : Int)) = (connBoard 3 2).getPiece ((0 : Int), (1 : Int)) :=
  c8_swap_mismatch_fails (connBoard 3 2) _ _ (by decide)

/-! ## Shuffle preserves connections and unconnected-edge counts (C6) -/

theorem getD_set {α : Type} [Inhabited α] (l : List α) (i j : Nat) (a : α) :
    (l.set i a).getD j default = if i = j ∧ i < l.length then a else l.getD j default := by
  rw [List.getD_eq_getElem?_getD, List.getD_eq_getElem?_getD, List.getElem?_set]
  by_cases hij : i = j
  · subst hij
    by_cases hlen : i < l.length
    · simp [hlen]
    · have hj : l.length ≤ i := by omega
      simp [hlen, List.getElem?_eq_none hj]
  · simp [hij]

theorem length_filter_four {α : Type} (P : α → Bool) (a b c d : α) :
    (List.filter P [a, b, c, d]).length =
      (P a).toNat + (P b).toNat + (P c).toNat + (P d).toNat := by
  cases ha : P a <;> cases hb : P b <;> cases hc : P c <;> cases hd : P d <;>
    simp [List.filter, ha, hb, hc, hd]

/-- The number of unconnected edges among a 4-edge block of the arena; this is
what `unconnectedCount` computes, independently of the piece's rotation. -/
def baseNoneCount (es : List Edge) (base : Nat) : Nat :=
  (([0, 1, 2, 3] : List Nat).filter fun m => (es.getD (base + m) default).connection = none).length

/-- The unconnected count read at the piece stored at index `i`. -/
def countE (b : Board) (i : Nat) : Nat :=
  baseNoneCount b.edges ((b.pieces.getD i default).edges)

theorem unconnectedCount_eq_base (b : Board) (p : Position) :
    b.unconnectedCount p = baseNoneCount b.edges (b.getPiece p).edges := by
  unfold Board.unconnectedCount baseNoneCount Board.get_edge_index Board.connAt
  have hall : Direction.all = [.Up, .Right, .Down, .Left] := rfl
  rw [hall, length_filter_four, length_filter_four]
  cases hr : (b.getPiece p).rotation <;>
    simp only [hr, Rotation.val, Direction.val] <;> norm_num <;> omega

theorem swap_mismatch (b : Board) (f t : Position)
    (h : b.unconnectedCount f ≠ b.unconnectedCount t) :
    b.swap f t = (false, b) := by
  unfold Board.swap
  rw [if_pos h]

theorem unconnectedCount_eq_countE (b : Board) (p : Position) :
    b.unconnectedCount p = countE b (b.get_piece_index p).toNat := by
  rw [unconnectedCount_eq_base]
  rfl

theorem swapRotations_frame (b : Board) (f t : Position) :
    (b.swapRotations f t).edges = b.edges ∧ (b.swapRotations f t).width = b.width ∧
      (b.swapRotations f t).height = b.height ∧
      (b.swapRotations f t).pieces.length = b.pieces.length ∧
      ∀ i : Nat, ((b.swapRotations f t).pieces.getD i default).edges =
        (b.pieces.getD i default).edges := by
  refine ⟨rfl, rfl, rfl, by simp [Board.swapRotations], ?_⟩
  intro i
  show ((((b.pieces.set _ _).set _ _)).getD i default).edges = _
  rw [getD_set]
  split
  · next hA =>
    rw [hA.1]
  · rw [getD_set]
    split
    · next hB =>
      rw [hB.1]
    · rfl

theorem swap_true_inv (b : Board) (f t : Position) (b2 : Board)
    (h : b.swap f t = (true, b2)) :
    b2.edges = b.edges ∧ b2.width = b.width ∧ b2.height = b.height ∧
      b2.pieces.length = b.pieces.length ∧ ∀ i : Nat, countE b2 i = countE b i := by
  by_cases hc : b.unconnectedCount f ≠ b.unconnectedCount t
  · rw [swap_mismatch b f t hc] at h
    exact absurd (congrArg Prod.fst h) (by simp)
  · push_neg at hc
    unfold Board.swap at h
    rw [if_neg (not_not_intro hc)] at h
    simp only [Prod.mk.injEq, true_and] at h
    set b1 := if 0 < b.unconnectedCount f then b.swapRotations f t else b with hb1def
    have hb1e : b1.edges = b.edges := by
      rw [hb1def]; split
      · exact (swapRotations_frame b f t).1
      · rfl
    have hb1w : b1.width = b.width := by
      rw [hb1def]; split
      · exact (swapRotations_frame b f t).2.1
      · rfl
    have hb1h : b1.height = b.height := by
      rw [hb1def]; split
      · exact (swapRotations_frame b f t).2.2.1
      · rfl
    have hb1len : b1.pieces.length = b.pieces.length := by
      rw [hb1def]; split
      · exact (swapRotations_frame b f t).2.2.2.1
      · rfl
    have hb1E : ∀ i : Nat, (b1.pieces.getD i default).edges =
        (b.pieces.getD i default).edges := by
      intro i
      rw [hb1def]; split
      · exact (swapRotations_frame b f t).2.2.2.2 i
      · rfl
    have hgf : (b1.get_piece_index f).toNat = (b.get_piece_index f).toNat := by
      unfold Board.get_piece_index
      rw [hb1w]
    have hgt : (b1.get_piece_index t).toNat = (b.get_piece_index t).toNat := by
      unfold Board.get_piece_index
      rw [hb1w]
    subst h
    unfold Board.swap_pieces
    rw [hgf, hgt]
    set fpi := (b.get_piece_index f).toNat with hfpi
    set tpi := (b.get_piece_index t).toNat with htpi
    refine ⟨hb1e, hb1w, hb1h, by simpa using hb1len, ?_⟩
    intro i
    have hfc : countE b fpi = countE b tpi := by
      have h1 := unconnectedCount_eq_countE b f
      have h2 := unconnectedCount_eq_countE b t
      rw [← hfpi] at h1
      rw [← htpi] at h2
      rw [← h1, ← h2]
      exact hc
    unfold countE
    simp only [hb1e]
    rw [getD_set]
    by_cases hA : tpi = i ∧ tpi < (b1.pieces.set fpi (b1.pieces.getD tpi default)).length
    · rw [if_pos hA, hb1E]
      have hx : baseNoneCount b.edges (b.pieces.getD fpi default).edges = countE b fpi := rfl
      rw [hx, hfc, hA.1]
      rfl
    · rw [if_neg hA, getD_set]
      by_cases hB : fpi = i ∧ fpi < b1.pieces.length
      · rw [if_pos hB, hb1E]
        have hx : baseNoneCount b.edges (b.pieces.getD tpi default).edges = countE b tpi := rfl
        rw [hx, ← hfc, hB.1]
        rfl
      · rw [if_neg hB, hb1E]

theorem setRotation_inv (b : Board) (p : Position) (r : Rotation) :
    (b.setRotation p r).edges = b.edges ∧ (b.setRotation p r).width = b.width ∧
      (b.setRotation p r).height = b.height ∧
      (b.setRotation p r).pieces.length = b.pieces.length ∧
      ∀ i : Nat, countE (b.setRotation p r) i = countE b i := by
  refine ⟨rfl, rfl, rfl, by simp [Board.setRotation], ?_⟩
  intro i
  unfold countE Board.setRotation
  show baseNoneCount b.edges (((b.pieces.set _ _).getD i default).edges) = _
  rw [getD_set]
  split
  · next hsp =>
    rw [hsp.1]
  · rfl

/-- What every shuffle step preserves: the edge arena (hence every
`connection` field), the dimensions, the piece count, and the
unconnected-edge count at every piece slot. -/
def shuffleInv (b b2 : Board) : Prop :=
  b2.edges = b.edges ∧ b2.width = b.width ∧ b2.height = b.height ∧
    b2.pieces.length = b.pieces.length ∧ ∀ i : Nat, countE b2 i = countE b i

theorem shuffleInv_refl (b : Board) : shuffleInv b b :=
  ⟨rfl, rfl, rfl, rfl, fun _ => rfl⟩

theorem shuffleInv_trans {a b c : Board} (h1 : shuffleInv a b) (h2 : shuffleInv b c) :
    shuffleInv a c :=
  ⟨h2.1.trans h1.1, h2.2.1.trans h1.2.1, h2.2.2.1.trans h1.2.2.1,
    h2.2.2.2.1.trans h1.2.2.2.1, fun i => (h2.2.2.2.2 i).trans (h1.2.2.2.2 i)⟩

theorem swap_true_shuffleInv (b : Board) (f t : Position) (b2 : Board)
    (h : b.swap f t = (true, b2)) : shuffleInv b b2 :=
  swap_true_inv b f t b2 h

theorem setRotation_shuffleInv (b : Board) (p : Position) (r : Rotation) :
    shuffleInv b (b.setRotation p r) :=
  setRotation_inv b p r

theorem swapTriples_inv (l : List Position) :
    ∀ (b b2 : Board), Board.swapTriples b l = some b2 → shuffleInv b b2 :=
  match l with
  | a :: x :: c :: rest => by
    intro b b2 h
    unfold Board.swapTriples at h
    rcases hs1 : b.swap a x with ⟨ok1, bb1⟩
    rw [hs1] at h
    cases ok1
    · simp at h
    · simp only [Bool.true_eq_false, if_false] at h
      rcases hs2 : bb1.swap a c with ⟨ok2, bb2⟩
      rw [hs2] at h
      cases ok2
      · simp at h
      · simp only [Bool.true_eq_false, if_false] at h
        exact shuffleInv_trans
          (shuffleInv_trans (swap_true_shuffleInv b a x bb1 hs1)
            (swap_true_shuffleInv bb1 a c bb2 hs2))
          (swapTriples_inv rest bb2 b2 h)
  | [] => by
    intro b b2 h
    simp only [Board.swapTriples, Option.some.injEq] at h
    subst h
    exact shuffleInv_refl b
  | [a] => by
    intro b b2 h
    simp only [Board.swapTriples, Option.some.injEq] at h
    subst h
    exact shuffleInv_refl b
  | [a, x] => by
    intro b b2 h
    simp only [Board.swapTriples, Option.some.injEq] at h
    subst h
    exact shuffleInv_refl b

theorem swapTriplesRot_inv (l : List Position) :
    ∀ (rots : Nat → Rotation) (k : Nat) (b b2 : Board),
      Board.swapTriplesRot rots b k l = some b2 → shuffleInv b b2 :=
  match l with
  | a :: x :: c :: rest => by
    intro rots k b b2 h
    unfold Board.swapTriplesRot at h
    rcases hs1 : b.swap a x with ⟨ok1, bb1⟩
    rw [hs1] at h
    cases ok1
    · simp at h
    · simp only [Bool.true_eq_false, if_false] at h
      rcases hs2 : bb1.swap a c with ⟨ok2, bb2⟩
      rw [hs2] at h
      cases ok2
      · simp at h
      · simp only [Bool.true_eq_false, if_false] at h
        refine shuffleInv_trans (shuffleInv_trans (shuffleInv_trans
          (swap_true_shuffleInv b a x bb1 hs1) (swap_true_shuffleInv bb1 a c bb2 hs2))
          (setRotation_shuffleInv bb2 a (rots k))) ?_
        exact swapTriplesRot_inv rest rots (k + 1) _ b2 h
  | [] => by
    intro rots k b b2 h
    simp only [Board.swapTriplesRot, Option.some.injEq] at h
    subst h
    exact shuffleInv_refl b
  | [a] => by
    intro rots k b b2 h
    simp only [Board.swapTriplesRot, Option.some.injEq] at h
    subst h
    exact shuffleInv_refl b
  | [a, x] => by
    intro rots k b b2 h
    simp only [Board.swapTriplesRot, Option.some.injEq] at h
    subst h
    exact shuffleInv_refl b

theorem shuffle_shuffleInv (b : Board) (bp cp : List Position) (rots : Nat → Rotation)
    (b2 : Board) (h : b.shuffle bp cp rots = some b2) : shuffleInv b b2 := by
  unfold Board.shuffle at h
  rcases hst : b.swapTriples bp with _ | b1
  · rw [hst] at h
    exact absurd h (by simp)
  · rw [hst] at h
    exact shuffleInv_trans (swapTriples_inv bp b b1 hst)
      (swapTriplesRot_inv cp rots 0 b1 b2 h)

/-- C6: a completed `shuffle` run never modifies any edge — in particular no
`connection` field — and leaves the unconnected-edge count at every position
unchanged. -/
theorem c6_shuffle_preserves_connections (b : Board) (bp cp : List Position)
    (rots : Nat → Rotation) (b2 : Board) (h : b.shuffle bp cp rots = some b2) :
    b2.edges = b.edges ∧
      ∀ p : Position, b2.unconnectedCount p = b.unconnectedCount p := by
  obtain ⟨he, hw, hh, hlen, hcount⟩ := shuffle_shuffleInv b bp cp rots b2 h
  refine ⟨he, fun p => ?_⟩
  rw [unconnectedCount_eq_countE, unconnectedCount_eq_countE]
  have hidx : b2.get_piece_index p = b.get_piece_index p := by
    unfold Board.get_piece_index
    rw [hw]
  rw [hidx]
  exact hcount _

theorem c6_witness :
    (((connBoard 5 2).shuffle (connBoard 5 2).borderPositions []
        (fun _ => Rotation.R0)).getD (connBoard 5 2)).edges = (connBoard 5 2).edges ∧
      (((connBoard 5 2).shuffle (connBoard 5 2).borderPositions []
        (fun _ => Rotation.R0)).getD (connBoard 5 2)).unconnectedCount ((0 : Int), (1 : Int)) =
        (connBoard 5 2).unconnectedCount ((0 : Int), (1 : Int)) := by
  have h : (connBoard 5 2).shuffle (connBoard 5 2).borderPositions []
      (fun _ => Rotation.R0) = some (((connBoard 5 2).shuffle
        (connBoard 5 2).borderPositions [] (fun _ => Rotation.R0)).getD (connBoard 5 2)) := by
    decide
  obtain ⟨h1, h2⟩ := c6_shuffle_preserves_connections _ _ _ _ _ h
  exact ⟨h1, h2 _⟩

/-! ## The connected grid (C5): infrastructure -/

theorem init_pieces_length (W H : Nat) : (Board.init W H).pieces.length = H * W := by
  simp [Board.init]

theorem init_edges_length (W H : Nat) : (Board.init W H).edges.length = 4 * (H * W) := by
  simp [Board.init]

theorem init_pieces_getD (W H k : Nat) (hk : k < H * W) :
    (Board.init W H).pieces.getD k default =
      { id := k, edges := 4 * k, rotation := initRotation W H (k / W) (k % W) } := by
  unfold Board.init
  rw [List.getD_eq_getElem?_getD, List.getElem?_map, List.getElem?_range hk]
  rfl

theorem init_edges_getD (W H s : Nat) :
    (Board.init W H).edges.getD s default = ({} : Edge) := by
  unfold Board.init
  rw [List.getD_eq_getElem?_getD]
  rcases lt_or_ge s (4 * (H * W)) with hs | hs
  · rw [List.getElem?_map, List.getElem?_range hs]
    rfl
  · rw [List.getElem?_eq_none (by simpa using hs)]
    rfl

theorem pidx_lt (W H i j : Nat) (hi : i < H) (hj : j < W) : i * W + j < H * W := by
  calc i * W + j < i * W + W := by omega
  _ = (i + 1) * W := by ring
  _ ≤ H * W := Nat.mul_le_mul_right W hi

theorem pidx_div (W i j : Nat) (hW : 0 < W) (hj : j < W) : (i * W + j) / W = i := by
  rw [Nat.add_comm, Nat.add_mul_div_right j i hW, Nat.div_eq_of_lt hj]
  omega

theorem pidx_mod (W i j : Nat) (hj : j < W) : (i * W + j) % W = j := by
  rw [Nat.add_comm, Nat.add_mul_mod_self_right, Nat.mod_eq_of_lt hj]

theorem pidx_inj (W i j i2 j2 : Nat) (hW : 0 < W) (hj : j < W) (hj2 : j2 < W)
    (h : i * W + j = i2 * W + j2) : i = i2 ∧ j = j2 := by
  have h1 : i = i2 := by
    rw [← pidx_div W i j hW hj, ← pidx_div W i2 j2 hW hj2, h]
  subst h1
  omega

/-- The arena index of the slot at grid cell `(i, j)` facing `d`, for the
pieces as laid down by `Board.init` (before any shuffle). -/
def slot (W H i j : Nat) (d : Direction) : Nat :=
  4 * (i * W + j) + ((initRotation W H i j).val + d.val) % 4

theorem rotation_val_lt (r : Rotation) : r.val < 4 := by
  cases r <;> simp [Rotation.val]

theorem offset_inj (r : Rotation) (d d2 : Direction)
    (h : (r.val + d.val) % 4 = (r.val + d2.val) % 4) : d = d2 := by
  revert h
  cases r <;> cases d <;> cases d2 <;> decide

theorem slot_lt (W H i j : Nat) (d : Direction) (hi : i < H) (hj : j < W) :
    slot W H i j d < 4 * (H * W) := by
  unfold slot
  have h1 := pidx_lt W H i j hi hj
  have h2 : ((initRotation W H i j).val + d.val) % 4 < 4 := Nat.mod_lt _ (by omega)
  omega

theorem slot_inj (W H i j i2 j2 : Nat) (d d2 : Direction) (hW : 0 < W)
    (hj : j < W) (hj2 : j2 < W) (h : slot W H i j d = slot W H i2 j2 d2) :
    i = i2 ∧ j = j2 ∧ d = d2 := by
  unfold slot at h
  have hm1 : ((initRotation W H i j).val + d.val) % 4 < 4 := Nat.mod_lt _ (by omega)
  have hm2 : ((initRotation W H i2 j2).val + d2.val) % 4 < 4 := Nat.mod_lt _ (by omega)
  have hk : i * W + j = i2 * W + j2 := by omega
  obtain ⟨rfl, rfl⟩ := pidx_inj W i j i2 j2 hW hj hj2 hk
  have hm : ((initRotation W H i j).val + d.val) % 4 =
      ((initRotation W H i j).val + d2.val) % 4 := by omega
  exact ⟨rfl, rfl, offset_inj _ _ _ hm⟩

def dirOfVal : Nat → Direction
  | 0 => .Up
  | 1 => .Right
  | 2 => .Down
  | _ => .Left

theorem dirOfVal_val (v : Nat) (hv : v < 4) : (dirOfVal v).val = v := by
  interval_cases v <;> rfl

theorem slot_surj (W H s : Nat) (hW : 0 < W) (hH : 0 < H) (hs : s < 4 * (H * W)) :
    ∃ i j d, i < H ∧ j < W ∧ slot W H i j d = s := by
  obtain ⟨k, m, hm4, rfl⟩ : ∃ k m, m < 4 ∧ s = 4 * k + m :=
    ⟨s / 4, s % 4, by omega, by omega⟩
  have hkHW : k < H * W := by omega
  have hsplit : W * (k / W) + k % W = k := Nat.div_add_mod k W
  obtain ⟨i, j, hiH, hjW, rfl⟩ : ∃ i j, i < H ∧ j < W ∧ k = i * W + j := by
    refine ⟨k / W, k % W, ?_, Nat.mod_lt _ hW, ?_⟩
    · rw [Nat.div_lt_iff_lt_mul hW]
      omega
    · rw [Nat.mul_comm] at hsplit
      omega
  have hr4 : (initRotation W H i j).val < 4 := rotation_val_lt _
  refine ⟨i, j, dirOfVal ((m + 4 - (initRotation W H i j).val) % 4), hiH, hjW, ?_⟩
  unfold slot
  rw [dirOfVal_val _ (by omega)]
  have hmod : ((initRotation W H i j).val +
      (m + 4 - (initRotation W H i j).val) % 4) % 4 = m := by omega
  omega

/-- The connection that `connect_adjacent_edges` establishes at the slot of
cell `(i, j)` facing `d`: the facing slot of the grid neighbor when that
neighbor is in bounds, `none` otherwise. -/
def expectedConn (W H i j : Nat) (d : Direction) : Option Nat :=
  if 0 ≤ (i : Int) + d.delta.1 ∧ (i : Int) + d.delta.1 < (H : Int) ∧
      0 ≤ (j : Int) + d.delta.2 ∧ (j : Int) + d.delta.2 < (W : Int) then
    some (slot W H ((i : Int) + d.delta.1).toNat ((j : Int) + d.delta.2).toNat d.inverse)
  else none

/-- Invariant maintained while `connect_adjacent_edges` folds over its tasks. -/
def ConnInv (W H : Nat) (b : Board) : Prop :=
  b.pieces = (Board.init W H).pieces ∧ b.width = W ∧ b.height = H ∧
    b.edges.length = 4 * (H * W) ∧
    (∀ s : Nat, (b.edges.getD s default).group = none ∧
      (b.edges.getD s default).shape = Shape.Flat ∧
      (b.edges.getD s default).merges = []) ∧
    (∀ i j : Nat, ∀ d : Direction, i < H → j < W →
      b.connAt (slot W H i j d) = none ∨
        b.connAt (slot W H i j d) = expectedConn W H i j d)

theorem natCast_mul_add_toNat (i W j : Nat) :
    ((i : Int) * (W : Int) + (j : Int)).toNat = i * W + j := by
  rw [show ((i : Int) * (W : Int) + (j : Int)) = ((i * W + j : Nat) : Int) by push_cast; ring]
  exact Int.toNat_natCast _

theorem get_edge_index_eq_slot (W H : Nat) (hW : 0 < W) (b : Board)
    (hp : b.pieces = (Board.init W H).pieces) (hw : b.width = W)
    (i j : Nat) (hi : i < H) (hj : j < W) (d : Direction) :
    b.get_edge_index ((i : Int), (j : Int)) d = slot W H i j d := by
  unfold Board.get_edge_index Board.getPiece Board.get_piece_index
  rw [hp, hw]
  simp only []
  rw [natCast_mul_add_toNat, init_pieces_getD W H _ (pidx_lt W H i j hi hj)]
  unfold slot
  rw [pidx_div W i j hW hj, pidx_mod W i j hj]

theorem in_bounds_iff (W H : Nat) (b : Board) (hw : b.width = W) (hh : b.height = H)
    (x y : Int) :
    b.in_bounds (x, y) = true ↔ (0 ≤ x ∧ x < (H : Int) ∧ 0 ≤ y ∧ y < (W : Int)) := by
  unfold Board.in_bounds
  rw [hw, hh]
  simp [and_assoc]

theorem connect_edges_spec (W H : Nat) (hW : 0 < W) (b : Board) (hinv : ConnInv W H b)
    (i j i2 j2 : Nat) (d d2 : Direction)
    (hi : i < H) (hj : j < W) (hi2 : i2 < H) (hj2 : j2 < W)
    (hne : ¬(i = i2 ∧ j = j2))
    (hexp1 : expectedConn W H i j d = some (slot W H i2 j2 d2))
    (hexp2 : expectedConn W H i2 j2 d2 = some (slot W H i j d)) :
    ∃ b2, b.connect_edges (slot W H i j d) (slot W H i2 j2 d2) = (true, b2) ∧
      ConnInv W H b2 ∧
      (∀ i3 j3 : Nat, ∀ d3 : Direction, i3 < H → j3 < W →
        ((i3 = i ∧ j3 = j ∧ d3 = d) ∨ (i3 = i2 ∧ j3 = j2 ∧ d3 = d2) ∨
          b.connAt (slot W H i3 j3 d3) = expectedConn W H i3 j3 d3) →
        b2.connAt (slot W H i3 j3 d3) = expectedConn W H i3 j3 d3) := by
  obtain ⟨hp, hw, hh, hlen, hdef, hconn⟩ := hinv
  have hs_ne : slot W H i j d ≠ slot W H i2 j2 d2 := by
    intro h
    obtain ⟨h1, h2, _⟩ := slot_inj W H i j i2 j2 d d2 hW hj hj2 h
    exact hne ⟨h1, h2⟩
  have hlt1 : slot W H i j d < b.edges.length := by
    rw [hlen]
    exact slot_lt W H i j d hi hj
  have hlt2 : slot W H i2 j2 d2 < b.edges.length := by
    rw [hlen]
    exact slot_lt W H i2 j2 d2 hi2 hj2
  refine ⟨{ b with edges := (b.edges.set (slot W H i j d) { b.edges.getD (slot W H i j d) default with connection := some (slot W H i2 j2 d2) }).set (slot W H i2 j2 d2) { b.edges.getD (slot W H i2 j2 d2) default with connection := some (slot W H i j d) } }, ?_, ?_⟩
  · unfold Board.connect_edges
    rw [if_neg hs_ne]
  ·
    have hgetD2 : ∀ s : Nat,
        ((b.edges.set (slot W H i j d) { b.edges.getD (slot W H i j d) default with connection := some (slot W H i2 j2 d2) }).set (slot W H i2 j2 d2) { b.edges.getD (slot W H i2 j2 d2) default with connection := some (slot W H i j d) }).getD s default =
          if slot W H i2 j2 d2 = s then { b.edges.getD (slot W H i2 j2 d2) default with connection := some (slot W H i j d) }
          else if slot W H i j d = s then { b.edges.getD (slot W H i j d) default with connection := some (slot W H i2 j2 d2) }
          else b.edges.getD s default := by
      intro s
      rw [getD_set, getD_set]
      simp only [List.length_set]
      by_cases h2 : slot W H i2 j2 d2 = s
      · rw [if_pos ⟨h2, by omega⟩, if_pos h2]
      · rw [if_neg (by intro hx; exact h2 hx.1), if_neg h2]
        by_cases h1 : slot W H i j d = s
        · rw [if_pos ⟨h1, by omega⟩, if_pos h1]
        · rw [if_neg (by intro hx; exact h1 hx.1), if_neg h1]
    have hconn2 : ∀ s : Nat,
        (Board.connAt { b with edges := (b.edges.set (slot W H i j d) { b.edges.getD (slot W H i j d) default with connection := some (slot W H i2 j2 d2) }).set (slot W H i2 j2 d2) { b.edges.getD (slot W H i2 j2 d2) default with connection := some (slot W H i j d) } } s) =
          if slot W H i2 j2 d2 = s then some (slot W H i j d)
          else if slot W H i j d = s then some (slot W H i2 j2 d2)
          else b.connAt s := by
      intro s
      show (((b.edges.set _ _).set _ _).getD s default).connection = _
      rw [hgetD2 s]
      by_cases h2 : slot W H i2 j2 d2 = s
      · rw [if_pos h2, if_pos h2]
      · rw [if_neg h2, if_neg h2]
        by_cases h1 : slot W H i j d = s
        · rw [if_pos h1, if_pos h1]
        · rw [if_neg h1, if_neg h1]
          rfl
    constructor
    · -- invariant for the written board
      refine ⟨hp, hw, hh, by simpa using hlen, ?_, ?_⟩
      · intro s
        show (((b.edges.set _ _).set _ _).getD s default).group = none ∧
          (((b.edges.set _ _).set _ _).getD s default).shape = Shape.Flat ∧
          (((b.edges.set _ _).set _ _).getD s default).merges = []
        rw [hgetD2 s]
        by_cases h2 : slot W H i2 j2 d2 = s
        · rw [if_pos h2]
          exact hdef _
        · rw [if_neg h2]
          by_cases h1 : slot W H i j d = s
          · rw [if_pos h1]
            exact hdef _
          · rw [if_neg h1]
            exact hdef s
      · intro i3 j3 d3 hi3 hj3
        rw [hconn2]
        by_cases h2 : slot W H i2 j2 d2 = slot W H i3 j3 d3
        · rw [if_pos h2]
          right
          obtain ⟨ha, hb, hc⟩ := slot_inj W H i2 j2 i3 j3 d2 d3 hW hj2 hj3 h2
          subst ha
          subst hb
          subst hc
          rw [hexp2]
        · rw [if_neg h2]
          by_cases h1 : slot W H i j d = slot W H i3 j3 d3
          · rw [if_pos h1]
            right
            obtain ⟨ha, hb, hc⟩ := slot_inj W H i j i3 j3 d d3 hW hj hj3 h1
            subst ha
            subst hb
            subst hc
            rw [hexp1]
          · rw [if_neg h1]
            exact hconn i3 j3 d3 hi3 hj3
    · intro i3 j3 d3 hi3 hj3 hprev
      rw [hconn2]
      by_cases h2 : slot W H i2 j2 d2 = slot W H i3 j3 d3
      · rw [if_pos h2]
        obtain ⟨ha, hb, hc⟩ := slot_inj W H i2 j2 i3 j3 d2 d3 hW hj2 hj3 h2
        subst ha
        subst hb
        subst hc
        rw [hexp2]
      · rw [if_neg h2]
        by_cases h1 : slot W H i j d = slot W H i3 j3 d3
        · rw [if_pos h1]
          obtain ⟨ha, hb, hc⟩ := slot_inj W H i j i3 j3 d d3 hW hj hj3 h1
          subst ha
          subst hb
          subst hc
          rw [hexp1]
        · rw [if_neg h1]
          rcases hprev with ⟨ha, hb, hc⟩ | ⟨ha, hb, hc⟩ | hold
          · exact absurd (by rw [ha, hb, hc]) h1
          · exact absurd (by rw [ha, hb, hc]) h2
          · exact hold

theorem connectStep_spec (W H : Nat) (hW : 0 < W) (hH : 0 < H) (b : Board)
    (hinv : ConnInv W H b) (i j : Nat) (hi : i < H) (hj : j < W) (d : Direction) :
    ∃ b2, connectStep (some (true, b)) ((((i : Int), (j : Int)), d)) = some (true, b2) ∧
      ConnInv W H b2 ∧
      b2.connAt (slot W H i j d) = expectedConn W H i j d ∧
      (∀ i3 j3 : Nat, ∀ d3 : Direction, i3 < H → j3 < W →
        b.connAt (slot W H i3 j3 d3) = expectedConn W H i3 j3 d3 →
        b2.connAt (slot W H i3 j3 d3) = expectedConn W H i3 j3 d3) := by
  have hp := hinv.1
  have hw := hinv.2.1
  have hh := hinv.2.2.1
  have hconn := hinv.2.2.2.2.2
  by_cases hb : b.in_bounds ((i : Int) + d.delta.1, (j : Int) + d.delta.2) = true
  · -- the neighbor is in bounds: a connection is written
    have hbnds := (in_bounds_iff W H b hw hh _ _).mp hb
    have hstep : connectStep (some (true, b)) ((((i : Int), (j : Int)), d)) =
        b.connect_pieces ((i : Int), (j : Int))
          ((i : Int) + d.delta.1, (j : Int) + d.delta.2) := by
      show (if b.in_bounds ((i : Int) + d.delta.1, (j : Int) + d.delta.2) = false
          then some (true, b)
          else b.connect_pieces ((i : Int), (j : Int))
            ((i : Int) + d.delta.1, (j : Int) + d.delta.2)) = _
      rw [hb]
      simp
    have hadj : b.is_adjacent ((i : Int), (j : Int))
        ((i : Int) + d.delta.1, (j : Int) + d.delta.2) = true := by
      unfold Board.is_adjacent
      cases d <;> simp [Direction.delta] <;> omega
    cases d with
    | Down =>
      simp only [Direction.delta] at hstep hbnds hadj ⊢
      have hi2 : i + 1 < H := by omega
      have hpair : (((i : Int) + 1, (j : Int) + 0) : Position) =
          (((i + 1 : Nat) : Int), ((j : Nat) : Int)) := by
        rw [Prod.mk.injEq]
        constructor <;> push_cast <;> ring
      have hexp1 : expectedConn W H i j .Down = some (slot W H (i + 1) j .Up) := by
        unfold expectedConn
        rw [if_pos (by simp [Direction.delta]; omega)]
        simp only [Direction.delta, Direction.inverse]
        have h1 : ((i : Int) + 1).toNat = i + 1 := by omega
        have h2 : ((j : Int) + 0).toNat = j := by omega
        rw [h1, h2]
      have hexp2 : expectedConn W H (i + 1) j .Up = some (slot W H i j .Down) := by
        unfold expectedConn
        rw [if_pos (by simp [Direction.delta]; push_cast; omega)]
        simp only [Direction.delta, Direction.inverse]
        have h1 : (((i + 1 : Nat) : Int) + -1).toNat = i := by push_cast; omega
        have h2 : (((j : Nat) : Int) + 0).toNat = j := by omega
        rw [h1, h2]
      obtain ⟨b2, hce, hinv2, hpost⟩ := connect_edges_spec W H hW b hinv i j (i + 1) j
        .Down .Up hi hj hi2 hj (by omega) hexp1 hexp2
      refine ⟨b2, ?_, hinv2, ?_, ?_⟩
      · rw [hstep]
        unfold Board.connect_pieces
        rw [hadj]
        rw [if_neg (by simp)]
        rw [if_pos (by simp <;> omega)]
        rw [get_edge_index_eq_slot W H hW b hp hw i j hi hj .Down, hpair,
          get_edge_index_eq_slot W H hW b hp hw (i + 1) j hi2 hj .Up, hce]
      · exact hpost i j .Down hi hj (Or.inl ⟨rfl, rfl, rfl⟩)
      · intro i3 j3 d3 hi3 hj3 hold
        exact hpost i3 j3 d3 hi3 hj3 (Or.inr (Or.inr hold))
    | Up =>
      simp only [Direction.delta] at hstep hbnds hadj ⊢
      have hi0 : 0 < i := by omega
      have hpair : (((i : Int) + -1, (j : Int) + 0) : Position) =
          (((i - 1 : Nat) : Int), ((j : Nat) : Int)) := by
        rw [Prod.mk.injEq]
        constructor
        · omega
        · ring
      have hexp1 : expectedConn W H i j .Up = some (slot W H (i - 1) j .Down) := by
        unfold expectedConn
        rw [if_pos (by simp [Direction.delta]; omega)]
        simp only [Direction.delta, Direction.inverse]
        have h1 : ((i : Int) + -1).toNat = i - 1 := by omega
        have h2 : ((j : Int) + 0).toNat = j := by omega
        rw [h1, h2]
      have hexp2 : expectedConn W H (i - 1) j .Down = some (slot W H i j .Up) := by
        unfold expectedConn
        rw [if_pos (by simp [Direction.delta]; push_cast; omega)]
        simp only [Direction.delta, Direction.inverse]
        have h1 : (((i - 1 : Nat) : Int) + 1).toNat = i := by push_cast; omega
        have h2 : (((j : Nat) : Int) + 0).toNat = j := by omega
        rw [h1, h2]
      obtain ⟨b2, hce, hinv2, hpost⟩ := connect_edges_spec W H hW b hinv i j (i - 1) j
        .Up .Down hi hj (by omega) hj (by omega) hexp1 hexp2
      refine ⟨b2, ?_, hinv2, ?_, ?_⟩
      · rw [hstep]
        unfold Board.connect_pieces
        rw [hadj]
        rw [if_neg (by simp)]
        rw [if_neg (by simp <;> omega)]
        rw [if_pos (by simp <;> omega)]
        rw [get_edge_index_eq_slot W H hW b hp hw i j hi hj .Up, hpair,
          get_edge_index_eq_slot W H hW b hp hw (i - 1) j (by omega) hj .Down, hce]
      · exact hpost i j .Up hi hj (Or.inl ⟨rfl, rfl, rfl⟩)
      · intro i3 j3 d3 hi3 hj3 hold
        exact hpost i3 j3 d3 hi3 hj3 (Or.inr (Or.inr hold))
    | Right =>
      simp only [Direction.delta] at hstep hbnds hadj ⊢
      have hj2 : j + 1 < W := by omega
      have hpair : (((i : Int) + 0, (j : Int) + 1) : Position) =
          (((i : Nat) : Int), ((j + 1 : Nat) : Int)) := by
        rw [Prod.mk.injEq]
        constructor
        · ring
        · push_cast
          ring
      have hexp1 : expectedConn W H i j .Right = some (slot W H i (j + 1) .Left) := by
        unfold expectedConn
        rw [if_pos (by simp [Direction.delta]; omega)]
        simp only [Direction.delta, Direction.inverse]
        have h1 : ((i : Int) + 0).toNat = i := by omega
        have h2 : ((j : Int) + 1).toNat = j + 1 := by omega
        rw [h1, h2]
      have hexp2 : expectedConn W H i (j + 1) .Left = some (slot W H i j .Right) := by
        unfold expectedConn
        rw [if_pos (by simp [Direction.delta]; push_cast; omega)]
        simp only [Direction.delta, Direction.inverse]
        have h1 : (((i : Nat) : Int) + 0).toNat = i := by omega
        have h2 : (((j + 1 : Nat) : Int) + -1).toNat = j := by push_cast; omega
        rw [h1, h2]
      obtain ⟨b2, hce, hinv2, hpost⟩ := connect_edges_spec W H hW b hinv i j i (j + 1)
        .Right .Left hi hj hi hj2 (by omega) hexp1 hexp2
      refine ⟨b2, ?_, hinv2, ?_, ?_⟩
      · rw [hstep]
        unfold Board.connect_pieces
        rw [hadj]
        rw [if_neg (by simp)]
        rw [if_neg (by simp)]
        rw [if_neg (by simp)]
        rw [if_pos (by simp <;> omega)]
        rw [get_edge_index_eq_slot W H hW b hp hw i j hi hj .Right, hpair,
          get_edge_index_eq_slot W H hW b hp hw i (j + 1) hi hj2 .Left, hce]
      · exact hpost i j .Right hi hj (Or.inl ⟨rfl, rfl, rfl⟩)
      · intro i3 j3 d3 hi3 hj3 hold
        exact hpost i3 j3 d3 hi3 hj3 (Or.inr (Or.inr hold))
    | Left =>
      simp only [Direction.delta] at hstep hbnds hadj ⊢
      have hj0 : 0 < j := by omega
      have hpair : (((i : Int) + 0, (j : Int) + -1) : Position) =
          (((i : Nat) : Int), ((j - 1 : Nat) : Int)) := by
        rw [Prod.mk.injEq]
        constructor
        · ring
        · omega
      have hexp1 : expectedConn W H i j .Left = some (slot W H i (j - 1) .Right) := by
        unfold expectedConn
        rw [if_pos (by simp [Direction.delta]; omega)]
        simp only [Direction.delta, Direction.inverse]
        have h1 : ((i : Int) + 0).toNat = i := by omega
        have h2 : ((j : Int) + -1).toNat = j - 1 := by omega
        rw [h1, h2]
      have hexp2 : expectedConn W H i (j - 1) .Right = some (slot W H i j .Left) := by
        unfold expectedConn
        rw [if_pos (by simp [Direction.delta]; push_cast; omega)]
        simp only [Direction.delta, Direction.inverse]
        have h1 : (((i : Nat) : Int) + 0).toNat = i := by omega
        have h2 : (((j - 1 : Nat) : Int) + 1).toNat = j := by push_cast; omega
        rw [h1, h2]
      obtain ⟨b2, hce, hinv2, hpost⟩ := connect_edges_spec W H hW b hinv i j i (j - 1)
        .Left .Right hi hj hi (by omega) (by omega) hexp1 hexp2
      refine ⟨b2, ?_, hinv2, ?_, ?_⟩
      · rw [hstep]
        unfold Board.connect_pieces
        rw [hadj]
        rw [if_neg (by simp)]
        rw [if_neg (by simp)]
        rw [if_neg (by simp)]
        rw [if_neg (by simp <;> omega)]
        rw [if_pos (by simp <;> omega)]
        rw [get_edge_index_eq_slot W H hW b hp hw i j hi hj .Left, hpair,
          get_edge_index_eq_slot W H hW b hp hw i (j - 1) hi (by omega) .Right, hce]
      · exact hpost i j .Left hi hj (Or.inl ⟨rfl, rfl, rfl⟩)
      · intro i3 j3 d3 hi3 hj3 hold
        exact hpost i3 j3 d3 hi3 hj3 (Or.inr (Or.inr hold))
  · -- the neighbor is out of bounds: nothing happens and the slot stays `none`
    have hbf : b.in_bounds ((i : Int) + d.delta.1, (j : Int) + d.delta.2) = false := by
      revert hb
      cases b.in_bounds ((i : Int) + d.delta.1, (j : Int) + d.delta.2) <;> simp
    have hexp : expectedConn W H i j d = none := by
      unfold expectedConn
      rw [if_neg]
      intro hcond
      exact hb ((in_bounds_iff W H b hw hh _ _).mpr hcond)
    refine ⟨b, ?_, hinv, ?_, fun i3 j3 d3 _ _ hold => hold⟩
    · show (if b.in_bounds ((i : Int) + d.delta.1, (j : Int) + d.delta.2) = false
          then some (true, b)
          else b.connect_pieces ((i : Int), (j : Int))
            ((i : Int) + d.delta.1, (j : Int) + d.delta.2)) = some (true, b)
      rw [hbf]
      simp
    · rcases hconn i j d hi hj with hnone | hsome
      · rw [hnone, hexp]
      · rw [hsome]

theorem connect_fold_spec (W H : Nat) (hW : 0 < W) (hH : 0 < H) :
    ∀ (L : List (Position × Direction)) (b : Board),
      (∀ pd ∈ L, ∃ i j : Nat, ∃ d : Direction,
        i < H ∧ j < W ∧ pd = (((i : Int), (j : Int)), d)) →
      ConnInv W H b →
      ∃ b2, L.foldl connectStep (some (true, b)) = some (true, b2) ∧ ConnInv W H b2 ∧
        (∀ i j : Nat, ∀ d : Direction, i < H → j < W →
          (((((i : Int), (j : Int)), d) : Position × Direction) ∈ L ∨
            b.connAt (slot W H i j d) = expectedConn W H i j d) →
          b2.connAt (slot W H i j d) = expectedConn W H i j d)
  | [], b, _, hinv => ⟨b, rfl, hinv, by
      intro i j d hi hj hmem
      rcases hmem with h | h
      · exact absurd h (List.not_mem_nil _)
      · exact h⟩
  | pd :: rest, b, hL, hinv => by
      obtain ⟨i0, j0, d0, hi0, hj0, rfl⟩ := hL pd (List.mem_cons_self pd rest)
      obtain ⟨b1, hstep, hinv1, hQ, hpersist⟩ :=
        connectStep_spec W H hW hH b hinv i0 j0 hi0 hj0 d0
      obtain ⟨b2, hfold, hinv2, hfinal⟩ := connect_fold_spec W H hW hH rest b1
        (fun q hq => hL q (List.mem_cons_of_mem _ hq)) hinv1
      refine ⟨b2, ?_, hinv2, ?_⟩
      · rw [List.foldl_cons, hstep, hfold]
      · intro i j d hi hj hmem
        rcases hmem with hmem | hold
        · rcases List.mem_cons.mp hmem with heq | hmem2
          · have hcomp : (i = i0 ∧ j = j0) ∧ d = d0 := by
              simpa [Prod.ext_iff] using heq
            obtain ⟨⟨hieq, hjeq⟩, hdeq⟩ := hcomp
            subst hieq
            subst hjeq
            rw [hdeq]
            exact hfinal _ _ _ hi0 hj0 (Or.inr hQ)
          · exact hfinal i j d hi hj (Or.inl hmem2)
        · exact hfinal i j d hi hj (Or.inr (hpersist i j d hi hj hold))

theorem taskList_valid (W H : Nat) (b : Board) (hw : b.width = W) (hh : b.height = H) :
    ∀ pd ∈ b.taskList, ∃ i j : Nat, ∃ d : Direction,
      i < H ∧ j < W ∧ pd = (((i : Int), (j : Int)), d) := by
  intro pd hpd
  unfold Board.taskList at hpd
  rw [hw, hh] at hpd
  simp only [List.mem_flatMap, List.mem_map, List.mem_range] at hpd
  obtain ⟨i, hi, j, hj, d, hd, rfl⟩ := hpd
  exact ⟨i, j, d, hi, hj, rfl⟩

theorem mem_taskList (W H : Nat) (b : Board) (hw : b.width = W) (hh : b.height = H)
    (i j : Nat) (d : Direction) (hi : i < H) (hj : j < W) :
    ((((i : Int), (j : Int)), d) : Position × Direction) ∈ b.taskList := by
  unfold Board.taskList
  rw [hw, hh]
  simp only [List.mem_flatMap, List.mem_map, List.mem_range]
  refine ⟨i, hi, j, hj, d, ?_, rfl⟩
  cases d <;> simp [Direction.all]

/-- The full characterization of the connected starting grid. -/
theorem connGrid_spec (W H : Nat) (hW : 0 < W) (hH : 0 < H) :
    (Board.init W H).connect_adjacent_edges = some (true, connBoard W H) ∧
      ConnInv W H (connBoard W H) ∧
      ∀ i j : Nat, ∀ d : Direction, i < H → j < W →
        (connBoard W H).connAt (slot W H i j d) = expectedConn W H i j d := by
  have hinv0 : ConnInv W H (Board.init W H) := by
    refine ⟨rfl, rfl, rfl, init_edges_length W H, ?_, ?_⟩
    · intro s
      rw [init_edges_getD]
      exact ⟨rfl, rfl, rfl⟩
    · intro i j d hi hj
      left
      unfold Board.connAt
      rw [init_edges_getD]
  obtain ⟨b2, hfold, hinv2, hfinal⟩ := connect_fold_spec W H hW hH
    ((Board.init W H).taskList) (Board.init W H)
    (taskList_valid W H _ rfl rfl) hinv0
  have hconn_eq : (Board.init W H).connect_adjacent_edges = some (true, b2) := hfold
  have hcb : connBoard W H = b2 := by
    unfold connBoard
    rw [hconn_eq]
  rw [hcb]
  refine ⟨hconn_eq, hinv2, ?_⟩
  intro i j d hi hj
  exact hfinal i j d hi hj (Or.inl (mem_taskList W H _ rfl rfl i j d hi hj))

theorem inverse_inverse (d : Direction) : d.inverse.inverse = d := by
  cases d <;> rfl

theorem expectedConn_some (W H i j : Nat) (d : Direction) (t : Nat)
    (hi : i < H) (hj : j < W)
    (h : expectedConn W H i j d = some t) :
    ∃ i2 j2 : Nat, i2 < H ∧ j2 < W ∧ t = slot W H i2 j2 d.inverse ∧
      expectedConn W H i2 j2 d.inverse = some (slot W H i j d) := by
  unfold expectedConn at h
  split at h
  · next hcond =>
    obtain ⟨hc1, hc2, hc3, hc4⟩ := hcond
    simp only [Option.some.injEq] at h
    refine ⟨((i : Int) + d.delta.1).toNat, ((j : Int) + d.delta.2).toNat,
      by omega, by omega, h.symm, ?_⟩
    unfold expectedConn
    rw [if_pos ?hc]
    case hc =>
      revert hc1 hc2 hc3 hc4
      cases d
      all_goals simp only [Direction.delta, Direction.inverse]
      all_goals intro hc1 hc2 hc3 hc4
      all_goals exact ⟨by omega, by omega, by omega, by omega⟩
    have h1 : ((((i : Int) + d.delta.1).toNat : Int) + d.inverse.delta.1).toNat = i := by
      revert hc1 hc2 hc3 hc4
      cases d
      all_goals simp only [Direction.delta, Direction.inverse]
      all_goals intro hc1 hc2 hc3 hc4
      all_goals omega
    have h2 : ((((j : Int) + d.delta.2).toNat : Int) + d.inverse.delta.2).toNat = j := by
      revert hc1 hc2 hc3 hc4
      cases d
      all_goals simp only [Direction.delta, Direction.inverse]
      all_goals intro hc1 hc2 hc3 hc4
      all_goals omega
    rw [h1, h2, inverse_inverse]
  · exact absurd h (by simp)

/-- C5: for `W, H > 1`, `Board(W, H)` followed by `connect_adjacent_edges`
returns success and yields exactly `W*H` pieces with ids `0..W*H-1` in
row-major order and `4*W*H` edges; a slot addressed by `(position, direction)`
is unconnected exactly when the neighbor in that direction is out of bounds
(so exactly the border-facing slots are `None` and every interior-facing slot
is connected), and every connection is symmetric. -/
theorem c5_grid_connectivity (W H : Nat) (hW : 1 < W) (hH : 1 < H) :
    (Board.init W H).connect_adjacent_edges = some (true, connBoard W H) ∧
      (connBoard W H).pieces.length = W * H ∧
      (∀ k : Nat, k < W * H → ((connBoard W H).pieces.getD k default).id = k) ∧
      (connBoard W H).edges.length = 4 * (W * H) ∧
      (∀ i j : Nat, ∀ d : Direction, i < H → j < W →
        ((connBoard W H).connAt ((connBoard W H).get_edge_index ((i : Int), (j : Int)) d) =
            none ↔
          (connBoard W H).in_bounds ((i : Int) + d.delta.1, (j : Int) + d.delta.2) =
            false)) ∧
      (∀ s t : Nat, s < 4 * (W * H) → (connBoard W H).connAt s = some t →
        (connBoard W H).connAt t = some s) := by
  obtain ⟨hfold, hinv, hQ⟩ := connGrid_spec W H (by omega) (by omega)
  obtain ⟨hp, hw, hh, hlen, hdef, _⟩ := hinv
  have hmulc : 4 * (W * H) = 4 * (H * W) := by ring
  refine ⟨hfold, ?_, ?_, ?_, ?_, ?_⟩
  · rw [hp, init_pieces_length, Nat.mul_comm]
  · intro k hk
    rw [hp, init_pieces_getD W H k (Nat.mul_comm W H ▸ hk)]
  · rw [hlen]
    ring
  · intro i j d hi hj
    rw [get_edge_index_eq_slot W H (by omega) _ hp hw i j hi hj d, hQ i j d hi hj]
    have hiff := in_bounds_iff W H (connBoard W H) hw hh
      ((i : Int) + d.delta.1) ((j : Int) + d.delta.2)
    unfold expectedConn
    constructor
    · intro hnone
      split at hnone
      · exact absurd hnone (by simp)
      · next hcond =>
        cases hb : (connBoard W H).in_bounds
            ((i : Int) + d.delta.1, (j : Int) + d.delta.2)
        · rfl
        · exact absurd (hiff.mp hb) hcond
    · intro hfalse
      rw [if_neg]
      intro hcond
      rw [hiff.mpr hcond] at hfalse
      simp at hfalse
  · intro s t hs hst
    obtain ⟨i, j, d, hi, hj, rfl⟩ := slot_surj W H s (by omega) (by omega) (by omega)
    rw [hQ i j d hi hj] at hst
    obtain ⟨i2, j2, hi2, hj2, rfl, hrev⟩ := expectedConn_some W H i j d t hi hj hst
    rw [hQ i2 j2 d.inverse hi2 hj2, hrev]

theorem c5_witness :
    (Board.init 2 2).connect_adjacent_edges = some (true, connBoard 2 2) ∧
      (connBoard 2 2).pieces.length = 2 * 2 ∧
      (connBoard 2 2).edges.length = 4 * (2 * 2) :=
  ⟨(c5_grid_connectivity 2 2 (by omega) (by omega)).1,
    (c5_grid_connectivity 2 2 (by omega) (by omega)).2.1,
    (c5_grid_connectivity 2 2 (by omega) (by omega)).2.2.2.1⟩

/-! ## Shuffle success on the connected grid (C7) -/

theorem connBoard_width (W H : Nat) (hW : 0 < W) (hH : 0 < H) :
    (connBoard W H).width = W :=
  (connGrid_spec W H hW hH).2.1.2.1

theorem connBoard_height (W H : Nat) (hW : 0 < W) (hH : 0 < H) :
    (connBoard W H).height = H :=
  (connGrid_spec W H hW hH).2.1.2.2.1

theorem borderPositions_congr (b b2 : Board) (hw : b.width = b2.width)
    (hh : b.height = b2.height) : b.borderPositions = b2.borderPositions := by
  unfold Board.borderPositions
  rw [hw, hh]

theorem centerPositions_congr (b b2 : Board) (hw : b.width = b2.width)
    (hh : b.height = b2.height) : b.centerPositions = b2.centerPositions := by
  unfold Board.centerPositions
  rw [hw, hh]

theorem toNat_decide (P : Prop) [Decidable P] :
    (decide P).toNat = if P then 1 else 0 := by
  by_cases h : P <;> simp [h]

theorem connBoard_connAt_none_iff (W H : Nat) (hW : 1 < W) (hH : 1 < H)
    (i j : Nat) (hi : i < H) (hj : j < W) (d : Direction) :
    ((connBoard W H).connAt
        ((connBoard W H).get_edge_index ((i : Int), (j : Int)) d) = none) ↔
      ¬(0 ≤ (i : Int) + d.delta.1 ∧ (i : Int) + d.delta.1 < (H : Int) ∧
        0 ≤ (j : Int) + d.delta.2 ∧ (j : Int) + d.delta.2 < (W : Int)) := by
  obtain ⟨_, hinv, hQ⟩ := connGrid_spec W H (by omega) (by omega)
  obtain ⟨hp, hw, hh, _, _, _⟩ := hinv
  rw [get_edge_index_eq_slot W H (by omega) _ hp hw i j hi hj d, hQ i j d hi hj]
  unfold expectedConn
  split
  · next hcond => simp [hcond]
  · next hcond => simp [hcond]

theorem connBoard_count (W H : Nat) (hW : 1 < W) (hH : 1 < H)
    (i j : Nat) (hi : i < H) (hj : j < W) :
    (connBoard W H).unconnectedCount ((i : Int), (j : Int)) =
      (if i = 0 then 1 else 0) + (if j + 1 = W then 1 else 0) +
        (if i + 1 = H then 1 else 0) + (if j = 0 then 1 else 0) := by
  unfold Board.unconnectedCount
  have hall : Direction.all = [.Up, .Right, .Down, .Left] := rfl
  rw [hall, length_filter_four]
  have hUp := connBoard_connAt_none_iff W H hW hH i j hi hj .Up
  have hRight := connBoard_connAt_none_iff W H hW hH i j hi hj .Right
  have hDown := connBoard_connAt_none_iff W H hW hH i j hi hj .Down
  have hLeft := connBoard_connAt_none_iff W H hW hH i j hi hj .Left
  simp only [Direction.delta] at hUp hRight hDown hLeft
  rw [decide_eq_decide.mpr hUp, decide_eq_decide.mpr hRight,
    decide_eq_decide.mpr hDown, decide_eq_decide.mpr hLeft,
    toNat_decide, toNat_decide, toNat_decide, toNat_decide]
  have e1 : (¬(0 ≤ (i : Int) + -1 ∧ (i : Int) + -1 < (H : Int) ∧
      0 ≤ (j : Int) + 0 ∧ (j : Int) + 0 < (W : Int))) ↔ i = 0 := by omega
  have e2 : (¬(0 ≤ (i : Int) + 0 ∧ (i : Int) + 0 < (H : Int) ∧
      0 ≤ (j : Int) + 1 ∧ (j : Int) + 1 < (W : Int))) ↔ j + 1 = W := by omega
  have e3 : (¬(0 ≤ (i : Int) + 1 ∧ (i : Int) + 1 < (H : Int) ∧
      0 ≤ (j : Int) + 0 ∧ (j : Int) + 0 < (W : Int))) ↔ i + 1 = H := by omega
  have e4 : (¬(0 ≤ (i : Int) + 0 ∧ (i : Int) + 0 < (H : Int) ∧
      0 ≤ (j : Int) + -1 ∧ (j : Int) + -1 < (W : Int))) ↔ j = 0 := by omega
  rw [if_congr e1 rfl rfl, if_congr e2 rfl rfl, if_congr e3 rfl rfl, if_congr e4 rfl rfl]

theorem border_count_one (W H : Nat) (hW : 1 < W) (hH : 1 < H) :
    ∀ p ∈ (connBoard W H).borderPositions, (connBoard W H).unconnectedCount p = 1 := by
  intro p hp
  rw [borderPositions_congr (connBoard W H) (Board.init W H)
    (by rw [connBoard_width W H (by omega) (by omega)]; rfl)
    (by rw [connBoard_height W H (by omega) (by omega)]; rfl)] at hp
  obtain ⟨a, b⟩ := p
  rw [mem_borderPositions] at hp
  have ha0 : 0 ≤ a := by omega
  have hb0 : 0 ≤ b := by omega
  lift a to Nat using ha0 with i
  lift b to Nat using hb0 with j
  have hi : i < H := by omega
  have hj : j < W := by omega
  rw [connBoard_count W H hW hH i j hi hj]
  split_ifs <;> omega

theorem center_count_zero (W H : Nat) (hW : 1 < W) (hH : 1 < H) :
    ∀ p ∈ (connBoard W H).centerPositions, (connBoard W H).unconnectedCount p = 0 := by
  intro p hp
  rw [centerPositions_congr (connBoard W H) (Board.init W H)
    (by rw [connBoard_width W H (by omega) (by omega)]; rfl)
    (by rw [connBoard_height W H (by omega) (by omega)]; rfl)] at hp
  obtain ⟨a, b⟩ := p
  rw [mem_centerPositions] at hp
  have ha0 : 0 ≤ a := by omega
  have hb0 : 0 ≤ b := by omega
  lift a to Nat using ha0 with i
  lift b to Nat using hb0 with j
  have hi : i < H := by omega
  have hj : j < W := by omega
  rw [connBoard_count W H hW hH i j hi hj]
  split_ifs <;> omega

theorem count_preserved_of_shuffleInv {b b2 : Board} (h : shuffleInv b b2) :
    ∀ p : Position, b2.unconnectedCount p = b.unconnectedCount p := by
  intro p
  rw [unconnectedCount_eq_countE, unconnectedCount_eq_countE]
  have hidx : b2.get_piece_index p = b.get_piece_index p := by
    unfold Board.get_piece_index
    rw [h.2.1]
  rw [hidx]
  exact h.2.2.2.2 _

theorem swap_fst_true (b : Board) (f t : Position)
    (h : b.unconnectedCount f = b.unconnectedCount t) : (b.swap f t).1 = true := by
  unfold Board.swap
  rw [if_neg (not_not_intro h)]

theorem swapTriples_some (l : List Position) :
    ∀ (b : Board) (c : Nat), (∀ p ∈ l, b.unconnectedCount p = c) →
      ∃ b2, Board.swapTriples b l = some b2 ∧ shuffleInv b b2 :=
  match l with
  | a :: x :: y :: rest => by
    intro b c hc
    rcases hs1 : b.swap a x with ⟨ok1, b1⟩
    have hok1 : ok1 = true := by
      have := swap_fst_true b a x (by rw [hc a (by simp), hc x (by simp)])
      rw [hs1] at this
      exact this
    subst hok1
    have hinv1 : shuffleInv b b1 := swap_true_inv b a x b1 hs1
    rcases hs2 : b1.swap a y with ⟨ok2, b2⟩
    have hok2 : ok2 = true := by
      have := swap_fst_true b1 a y (by
        rw [count_preserved_of_shuffleInv hinv1, count_preserved_of_shuffleInv hinv1,
          hc a (by simp), hc y (by simp)])
      rw [hs2] at this
      exact this
    subst hok2
    have hinv2 : shuffleInv b1 b2 := swap_true_inv b1 a y b2 hs2
    have hrest : ∀ p ∈ rest, b2.unconnectedCount p = c := by
      intro p hp
      rw [count_preserved_of_shuffleInv hinv2, count_preserved_of_shuffleInv hinv1]
      exact hc p (by simp [hp])
    obtain ⟨b3, hb3, hinv3⟩ := swapTriples_some rest b2 c hrest
    refine ⟨b3, ?_, shuffleInv_trans (shuffleInv_trans hinv1 hinv2) hinv3⟩
    unfold Board.swapTriples
    rw [hs1]
    simp only [Bool.true_eq_false, if_false]
    rw [hs2]
    simp only [Bool.true_eq_false, if_false]
    exact hb3
  | [] => fun b _ _ => ⟨b, rfl, shuffleInv_refl b⟩
  | [a] => fun b _ _ => ⟨b, rfl, shuffleInv_refl b⟩
  | [a, x] => fun b _ _ => ⟨b, rfl, shuffleInv_refl b⟩

theorem swapTriplesRot_some (l : List Position) :
    ∀ (rots : Nat → Rotation) (k : Nat) (b : Board) (c : Nat),
      (∀ p ∈ l, b.unconnectedCount p = c) →
      ∃ b2, Board.swapTriplesRot rots b k l = some b2 ∧ shuffleInv b b2 :=
  match l with
  | a :: x :: y :: rest => by
    intro rots k b c hc
    rcases hs1 : b.swap a x with ⟨ok1, b1⟩
    have hok1 : ok1 = true := by
      have := swap_fst_true b a x (by rw [hc a (by simp), hc x (by simp)])
      rw [hs1] at this
      exact this
    subst hok1
    have hinv1 : shuffleInv b b1 := swap_true_inv b a x b1 hs1
    rcases hs2 : b1.swap a y with ⟨ok2, b2⟩
    have hok2 : ok2 = true := by
      have := swap_fst_true b1 a y (by
        rw [count_preserved_of_shuffleInv hinv1, count_preserved_of_shuffleInv hinv1,
          hc a (by simp), hc y (by simp)])
      rw [hs2] at this
      exact this
    subst hok2
    have hinv2 : shuffleInv b1 b2 := swap_true_inv b1 a y b2 hs2
    have hinv3 : shuffleInv b2 (b2.setRotation a (rots k)) := setRotation_inv b2 a (rots k)
    have hrest : ∀ p ∈ rest, (b2.setRotation a (rots k)).unconnectedCount p = c := by
      intro p hp
      rw [count_preserved_of_shuffleInv hinv3, count_preserved_of_shuffleInv hinv2,
        count_preserved_of_shuffleInv hinv1]
      exact hc p (by simp [hp])
    obtain ⟨b3, hb3, hinv4⟩ := swapTriplesRot_some rest rots (k + 1)
      (b2.setRotation a (rots k)) c hrest
    refine ⟨b3, ?_, shuffleInv_trans (shuffleInv_trans (shuffleInv_trans hinv1 hinv2)
      hinv3) hinv4⟩
    unfold Board.swapTriplesRot
    rw [hs1]
    simp only [Bool.true_eq_false, if_false]
    rw [hs2]
    simp only [Bool.true_eq_false, if_false]
    exact hb3
  | [] => fun _ _ b _ _ => ⟨b, rfl, shuffleInv_refl b⟩
  | [a] => fun _ _ b _ _ => ⟨b, rfl, shuffleInv_refl b⟩
  | [a, x] => fun _ _ b _ _ => ⟨b, rfl, shuffleInv_refl b⟩

/-- C7: on a freshly connected grid, every `swap` issued inside `shuffle`
(border phase and interior phase) has equal unconnected-edge counts at its two
positions, so it succeeds and none of the `assert self.swap(..)` statements
can fail: `shuffle` completes for every choice of randomness. -/
theorem c7_shuffle_swaps_succeed (W H : Nat) (hW : 1 < W) (hH : 1 < H)
    (bp cp : List Position) (rots : Nat → Rotation)
    (hbp : bp.Perm (connBoard W H).borderPositions)
    (hcp : cp.Perm (connBoard W H).centerPositions) :
    ((connBoard W H).shuffle bp cp rots).isSome := by
  have hbcount : ∀ p ∈ bp, (connBoard W H).unconnectedCount p = 1 := fun p hp =>
    border_count_one W H hW hH p (hbp.subset hp)
  obtain ⟨b1, hb1, hinv1⟩ := swapTriples_some bp (connBoard W H) 1 hbcount
  have hccount : ∀ p ∈ cp, b1.unconnectedCount p = 0 := by
    intro p hp
    rw [count_preserved_of_shuffleInv hinv1]
    exact center_count_zero W H hW hH p (hcp.subset hp)
  obtain ⟨b2, hb2, _⟩ := swapTriplesRot_some cp rots 0 b1 0 hccount
  unfold Board.shuffle
  rw [hb1]
  show (Board.swapTriplesRot rots b1 0 cp).isSome
  rw [hb2]
  rfl

theorem c7_witness :
    ((connBoard 5 2).shuffle (connBoard 5 2).borderPositions
      (connBoard 5 2).centerPositions (fun _ => Rotation.R0)).isSome :=
  c7_shuffle_swaps_succeed 5 2 (by omega) (by omega) _ _ _
    (List.Perm.refl _) (List.Perm.refl _)

/-! ## The uniqueness check (C3) -/

/-- The per-piece tuple read off the four directional edge slots in the fixed
order Up, Right, Down, Left through the rotation-aware `get_edge_index`
mapping. Modelled from the spec wording of the Uniqueness Checker, for
comparison with what `check_all_unique` actually reads. -/
def dirTupleSpec (b : Board) (p : Position) : List (Option Nat × Shape) :=
  Direction.all.map fun d =>
    let e := b.edges.getD (b.get_edge_index p d) default
    (e.group, e.shape)

theorem checkGo_true_iff (b : Board) :
    ∀ (ps : List Piece) (seen : List (List (Option Nat × Shape))),
      checkGo b ps seen = true ↔
        ((ps.map (pieceTuple b)).Nodup ∧ ∀ t ∈ ps.map (pieceTuple b), t ∉ seen)
  | [], seen => by simp [checkGo]
  | p :: rest, seen => by
    by_cases hmem : pieceTuple b p ∈ seen
    · have hfalse : checkGo b (p :: rest) seen = false := by
        simp only [checkGo]
        rw [if_pos hmem]
      rw [hfalse]
      simp only [List.map_cons, List.nodup_cons, List.mem_cons]
      constructor
      · intro h
        exact absurd h (by simp)
      · rintro ⟨_, hall⟩
        exact absurd (hall (pieceTuple b p) (Or.inl rfl)) (not_not_intro hmem)
    · have hstep : checkGo b (p :: rest) seen =
          checkGo b rest (pieceTuple b p :: seen) := by
        simp only [checkGo]
        rw [if_neg hmem]
      rw [hstep, checkGo_true_iff b rest (pieceTuple b p :: seen)]
      simp only [List.map_cons, List.nodup_cons, List.mem_cons]
      constructor
      · rintro ⟨hnd, hall⟩
        have hall2 : ∀ t ∈ rest.map (pieceTuple b), ¬t = pieceTuple b p ∧ t ∉ seen := by
          intro t ht
          have := hall t ht
          exact not_or.mp this
        refine ⟨⟨fun hmem2 => (hall2 _ hmem2).1 rfl, hnd⟩, ?_⟩
        intro t ht
        rcases ht with rfl | ht
        · exact hmem
        · exact (hall2 t ht).2
      · rintro ⟨⟨hnotin, hnd⟩, hall⟩
        refine ⟨hnd, ?_⟩
        intro t ht
        rw [not_or]
        constructor
        · intro heq
          subst heq
          exact hnotin ht
        · exact hall t (Or.inr ht)

/-- C3 (amended): `check_all_unique` returns failure exactly when two pieces
share the same `(group, shape)` 4-tuple read in the piece's raw physical slot
order `edges[piece.edges : piece.edges+4]` — not the rotation-aware
Up/Right/Down/Left order the spec describes. The check is a pure read-only
function of the board. -/
theorem c3_check_all_unique_iff (b : Board) :
    b.check_all_unique = false ↔ ¬(b.pieces.map (pieceTuple b)).Nodup := by
  unfold Board.check_all_unique
  rw [← Bool.not_eq_true, checkGo_true_iff b b.pieces []]
  simp

def setGS (b : Board) (i : Nat) (g : Option Nat) (s : Shape) : Board :=
  { b with edges := b.edges.set i { b.edges.getD i default with group := g, shape := s } }

/-- A 2 by 2 connected board where pieces 0 and 2 carry identical physical
edge tuples but, because their rotations differ (R270 versus R90), all four
pieces have pairwise distinct tuples in the rotation-aware direction order. -/
def boardB2 : Board :=
  setGS (setGS (setGS (setGS (connBoard 2 2) 0 (some 0) .Knob) 8 (some 0) .Knob)
    4 (some 1) .Socket) 12 (some 2) .Socket

/-- C3 counterexample: `check_all_unique` reports a duplicate on `boardB2`
although no two positions have identical tuples in the direction order
Up/Right/Down/Left — the code compares raw slot order, the claim's
rotation-aware order would accept this board. -/
theorem c3_counterexample :
    Board.check_all_unique boardB2 = false ∧
      ([((0 : Int), (0 : Int)), ((0 : Int), (1 : Int)),
        ((1 : Int), (0 : Int)), ((1 : Int), (1 : Int))] : List Position).Pairwise
        (fun p q => dirTupleSpec boardB2 p ≠ dirTupleSpec boardB2 q) := by
  constructor
  · decide
  · decide

/-! ## Group collapse accepts a non-bipartite board (C1) -/

/-- Symmetric `edges[i].merges.add(edges[j]); edges[j].merges.add(edges[i])`. -/
def addMergePair (b : Board) (i j : Nat) : Board :=
  let b1 := { b with edges := b.edges.set i ((b.edges.getD i default).addMerge j) }
  { b1 with edges := b1.edges.set j ((b1.edges.getD j default).addMerge i) }

/-- A 2 by 2 connected board whose merge sets force the three merge groups
{0, 14}, {1, 6} and {5, 9}. Their group graph is a triangle (an odd cycle):
edges[0].connection = edges[6], edges[9].connection = edges[1], and
edges[14].connection = edges[5], each linking two distinct groups. -/
def boardB1 : Board :=
  addMergePair (addMergePair (addMergePair (connBoard 2 2) 0 14) 1 6) 5 9

/-- C1 (code defect, concrete run): the group graph of `boardB1` is an odd
3-cycle over the groups {0,14}, {1,6}, {5,9}, so the claim requires
`collapse_edges` to return failure; instead it returns success and assigns
shape Knob to both edge 0 and edge 6, although they are `.connection`
partners lying in two different merge groups. The even/odd intersection test
in the code can never fire: the `seen` guard records each group in exactly
one layer. -/
theorem c1_collapse_accepts_odd_cycle :
    ((boardB1.collapse_edges).map Prod.fst = some true) ∧
      ((boardB1.collapse_edges).map fun r =>
        ((r.2.edges.getD 0 default).shape, (r.2.edges.getD 6 default).shape)) =
        some (Shape.Knob, Shape.Knob) ∧
      boardB1.connAt 0 = some 6 ∧
      boardB1.connAt 9 = some 1 ∧
      boardB1.connAt 14 = some 5 ∧
      groupDFS boardB1 (groupFuel boardB1) [0] [] = some [0, 14] ∧
      groupDFS boardB1 (groupFuel boardB1) [6] [] = some [6, 1] ∧
      groupDFS boardB1 (groupFuel boardB1) [9] [] = some [9, 5] := by
  refine ⟨?_, ?_, ?_, ?_, ?_, ?_, ?_, ?_⟩ <;> decide

/-! ## The generation loop accepts only collapsed boards (C2) -/

theorem collapse_false_id (b r : Board) (h : b.collapse_edges = some (false, r)) :
    r = b := by
  unfold Board.collapse_edges at h
  split at h
  · exact absurd h (by simp)
  · split at h
    · exact absurd h (by simp)
    · split at h
      · exact absurd h (by simp)
      · simp only [Option.some.injEq, Prod.mk.injEq] at h
        exact h.2.symm
      · split at h
        · exact absurd h (by simp)
        · exact absurd h (by simp)

/-- What `merge_edges` preserves: pieces, dimensions, edge count, and every
edge's `group` and `shape` (only the `merges` sets are written). -/
def MInv (b b2 : Board) : Prop :=
  b2.pieces = b.pieces ∧ b2.width = b.width ∧ b2.height = b.height ∧
    b2.edges.length = b.edges.length ∧
    ∀ s : Nat, ((b2.edges.getD s default).group = (b.edges.getD s default).group ∧
      (b2.edges.getD s default).shape = (b.edges.getD s default).shape)

theorem MInv_refl (b : Board) : MInv b b :=
  ⟨rfl, rfl, rfl, rfl, fun _ => ⟨rfl, rfl⟩⟩

theorem MInv_trans {a b c : Board} (h1 : MInv a b) (h2 : MInv b c) : MInv a c :=
  ⟨h2.1.trans h1.1, h2.2.1.trans h1.2.1, h2.2.2.1.trans h1.2.2.1,
    h2.2.2.2.1.trans h1.2.2.2.1,
    fun s => ⟨(h2.2.2.2.2 s).1.trans (h1.2.2.2.2 s).1,
      (h2.2.2.2.2 s).2.trans (h1.2.2.2.2 s).2⟩⟩

theorem addMerge_group (e : Edge) (i : Nat) :
    (e.addMerge i).group = e.group ∧ (e.addMerge i).shape = e.shape := by
  unfold Edge.addMerge
  split <;> exact ⟨rfl, rfl⟩

theorem set_addMerge_gs (es : List Edge) (i k s : Nat) :
    ((es.set i ((es.getD i default).addMerge k)).getD s default).group =
        (es.getD s default).group ∧
      ((es.set i ((es.getD i default).addMerge k)).getD s default).shape =
        (es.getD s default).shape := by
  rw [getD_set]
  split
  · next hA =>
    rw [← hA.1]
    exact addMerge_group _ _
  · exact ⟨rfl, rfl⟩

/-- The pair of symmetric `merges.add` writes one `merge_edges` step performs. -/
def doubleAddMerge (es : List Edge) (i k : Nat) : List Edge :=
  (es.set i ((es.getD i default).addMerge k)).set k
    (((es.set i ((es.getD i default).addMerge k)).getD k default).addMerge i)

theorem MInv_double_addMerge (bd : Board) (i k : Nat) :
    MInv bd { bd with edges := doubleAddMerge bd.edges i k } := by
  unfold doubleAddMerge
  refine ⟨rfl, rfl, rfl, by simp, fun s => ⟨?_, ?_⟩⟩
  · exact ((set_addMerge_gs (bd.edges.set i ((bd.edges.getD i default).addMerge k))
      k i s).1).trans (set_addMerge_gs bd.edges i k s).1
  · exact ((set_addMerge_gs (bd.edges.set i ((bd.edges.getD i default).addMerge k))
      k i s).2).trans (set_addMerge_gs bd.edges i k s).2

theorem mergeStep_inv (bd : Board) (task : Position × Direction) (bd2 : Board)
    (h : mergeStep (some bd) task = some bd2) : MInv bd bd2 := by
  simp only [mergeStep] at h
  split at h
  · simp only [Option.some.injEq] at h
    subst h
    exact MInv_refl bd
  · split at h
    · exact absurd h (by simp)
    · simp only [Option.some.injEq] at h
      subst h
      exact MInv_double_addMerge bd _ _

theorem mergeFold_none (l : List (Position × Direction)) :
    l.foldl mergeStep none = none := by
  induction l with
  | nil => rfl
  | cons t rest ih => simpa only [List.foldl_cons, mergeStep] using ih

theorem mergeFold_inv (l : List (Position × Direction)) :
    ∀ (bd b3 : Board), l.foldl mergeStep (some bd) = some b3 → MInv bd b3 := by
  induction l with
  | nil =>
    intro bd b3 h
    simp only [List.foldl_nil, Option.some.injEq] at h
    subst h
    exact MInv_refl bd
  | cons t rest ih =>
    intro bd b3 h
    rw [List.foldl_cons] at h
    rcases hstep : mergeStep (some bd) t with _ | bd1
    · rw [hstep, mergeFold_none] at h
      exact absurd h (by simp)
    · rw [hstep] at h
      exact MInv_trans (mergeStep_inv bd t bd1 hstep) (ih bd1 b3 h)

theorem merge_edges_MInv (b b3 : Board) (h : b.merge_edges = some b3) : MInv b b3 :=
  mergeFold_inv b.taskList b b3 h

/-- Every piece record points at a full 4-edge block of the edge arena. -/
def PieceBlocksIn (b : Board) : Prop :=
  ∀ i : Nat, (b.pieces.getD i default).edges + 4 ≤ b.edges.length

theorem swap_pieces_EB (b : Board) (f t : Position) (hb : PieceBlocksIn b) :
    PieceBlocksIn (b.swap_pieces f t) := by
  intro i
  show (((b.pieces.set (b.get_piece_index f).toNat
      (b.pieces.getD (b.get_piece_index t).toNat default)).set
        (b.get_piece_index t).toNat
        (b.pieces.getD (b.get_piece_index f).toNat default)).getD i default).edges + 4 ≤
    b.edges.length
  rw [getD_set]
  split
  · exact hb _
  · rw [getD_set]
    split
    · exact hb _
    · exact hb i

theorem swapRotations_EB (b : Board) (f t : Position) (hb : PieceBlocksIn b) :
    PieceBlocksIn (b.swapRotations f t) := by
  intro i
  rw [(swapRotations_frame b f t).2.2.2.2 i]
  have he : (b.swapRotations f t).edges = b.edges := (swapRotations_frame b f t).1
  rw [he]
  exact hb i

theorem setRotation_EB (b : Board) (p : Position) (r : Rotation) (hb : PieceBlocksIn b) :
    PieceBlocksIn (b.setRotation p r) := by
  intro i
  show ((b.pieces.set (b.get_piece_index p).toNat
      { b.pieces.getD (b.get_piece_index p).toNat default with
        rotation := r }).getD i default).edges + 4 ≤ b.edges.length
  rw [getD_set]
  split
  · exact hb _
  · exact hb i

theorem swap_EB (b : Board) (f t : Position) (ok : Bool) (b2 : Board)
    (h : b.swap f t = (ok, b2)) (hb : PieceBlocksIn b) : PieceBlocksIn b2 := by
  simp only [Board.swap] at h
  split at h
  · simp only [Prod.mk.injEq] at h
    rw [← h.2]
    exact hb
  · simp only [Prod.mk.injEq] at h
    rw [← h.2]
    split
    · exact swap_pieces_EB _ f t (swapRotations_EB b f t hb)
    · exact swap_pieces_EB _ f t hb

theorem swapTriples_EB (l : List Position) :
    ∀ (b b2 : Board), Board.swapTriples b l = some b2 → PieceBlocksIn b →
      PieceBlocksIn b2 :=
  match l with
  | a :: x :: c :: rest => by
    intro b b2 h hb
    unfold Board.swapTriples at h
    rcases hs1 : b.swap a x with ⟨ok1, bb1⟩
    rw [hs1] at h
    cases ok1
    · simp at h
    · simp only [Bool.true_eq_false, if_false] at h
      rcases hs2 : bb1.swap a c with ⟨ok2, bb2⟩
      rw [hs2] at h
      cases ok2
      · simp at h
      · simp only [Bool.true_eq_false, if_false] at h
        exact swapTriples_EB rest bb2 b2 h
          (swap_EB bb1 a c true bb2 hs2 (swap_EB b a x true bb1 hs1 hb))
  | [] => by
    intro b b2 h hb
    simp only [Board.swapTriples, Option.some.injEq] at h
    subst h
    exact hb
  | [a] => by
    intro b b2 h hb
    simp only [Board.swapTriples, Option.some.injEq] at h
    subst h
    exact hb
  | [a, x] => by
    intro b b2 h hb
    simp only [Board.swapTriples, Option.some.injEq] at h
    subst h
    exact hb

theorem swapTriplesRot_EB (l : List Position) :
    ∀ (rots : Nat → Rotation) (k : Nat) (b b2 : Board),
      Board.swapTriplesRot rots b k l = some b2 → PieceBlocksIn b →
        PieceBlocksIn b2 :=
  match l with
  | a :: x :: c :: rest => by
    intro rots k b b2 h hb
    unfold Board.swapTriplesRot at h
    rcases hs1 : b.swap a x with ⟨ok1, bb1⟩
    rw [hs1] at h
    cases ok1
    · simp at h
    · simp only [Bool.true_eq_false, if_false] at h
      rcases hs2 : bb1.swap a c with ⟨ok2, bb2⟩
      rw [hs2] at h
      cases ok2
      · simp at h
      · simp only [Bool.true_eq_false, if_false] at h
        exact swapTriplesRot_EB rest rots (k + 1) _ b2 h
          (setRotation_EB bb2 a (rots k)
            (swap_EB bb1 a c true bb2 hs2 (swap_EB b a x true bb1 hs1 hb)))
  | [] => by
    intro rots k b b2 h hb
    simp only [Board.swapTriplesRot, Option.some.injEq] at h
    subst h
    exact hb
  | [a] => by
    intro rots k b b2 h hb
    simp only [Board.swapTriplesRot, Option.some.injEq] at h
    subst h
    exact hb
  | [a, x] => by
    intro rots k b b2 h hb
    simp only [Board.swapTriplesRot, Option.some.injEq] at h
    subst h
    exact hb

theorem shuffle_EB (b : Board) (bp cp : List Position) (rots : Nat → Rotation)
    (b2 : Board) (h : b.shuffle bp cp rots = some b2) (hb : PieceBlocksIn b) :
    PieceBlocksIn b2 := by
  unfold Board.shuffle at h
  rcases hst : b.swapTriples bp with _ | b1
  · rw [hst] at h
    exact absurd h (by simp)
  · rw [hst] at h
    exact swapTriplesRot_EB cp rots 0 b1 b2 h (swapTriples_EB bp b b1 hst hb)

theorem connBoard_EB (W H : Nat) (hW : 1 < W) (hH : 1 < H) :
    PieceBlocksIn (connBoard W H) := by
  obtain ⟨hp, hw, hh, hlen, hdef, hco⟩ := (connGrid_spec W H (by omega) (by omega)).2.1
  intro i
  rw [hp, hlen]
  rcases lt_or_ge i (H * W) with hi | hi
  · rw [init_pieces_getD W H i hi]
    show 4 * i + 4 ≤ 4 * (H * W)
    omega
  · rw [List.getD_eq_getElem?_getD,
      List.getElem?_eq_none (by rw [init_pieces_length]; omega)]
    show 0 + 4 ≤ 4 * (H * W)
    have hpos : 0 < H * W := Nat.mul_pos (by omega) (by omega)
    omega

theorem pieceTuple_default (b : Board) (p : Piece)
    (hgs : ∀ s : Nat, ((b.edges.getD s default).group = none ∧
      (b.edges.getD s default).shape = Shape.Flat))
    (hb : p.edges + 4 ≤ b.edges.length) :
    pieceTuple b p = List.replicate 4 ((none : Option Nat), Shape.Flat) := by
  have hmem : ∀ x ∈ ((b.edges.drop p.edges).take 4).map (fun e => (e.group, e.shape)),
      x = ((none : Option Nat), Shape.Flat) := by
    intro x hx
    rw [List.mem_map] at hx
    obtain ⟨e, he, rfl⟩ := hx
    have he2 : e ∈ b.edges := List.mem_of_mem_drop (List.mem_of_mem_take he)
    obtain ⟨k, hk, hek⟩ := List.mem_iff_getElem.mp he2
    have hke : b.edges.getD k default = e := by
      rw [List.getD_eq_getElem?_getD, List.getElem?_eq_getElem hk, Option.getD_some, hek]
    have hg := hgs k
    rw [hke] at hg
    rw [Prod.mk.injEq]
    exact ⟨hg.1, hg.2⟩
  have hlen : (((b.edges.drop p.edges).take 4).map
      (fun e => (e.group, e.shape))).length = 4 := by
    rw [List.length_map, List.length_take, List.length_drop]
    omega
  have hrep := List.eq_replicate_of_mem hmem
  rw [hlen] at hrep
  exact hrep

theorem check_false_of_default (b : Board)
    (hgs : ∀ s : Nat, ((b.edges.getD s default).group = none ∧
      (b.edges.getD s default).shape = Shape.Flat))
    (heb : ∀ i : Nat, (b.pieces.getD i default).edges + 4 ≤ b.edges.length)
    (hlen2 : 2 ≤ b.pieces.length) :
    b.check_all_unique = false := by
  rcases hps : b.pieces with _ | ⟨p1, _ | ⟨p2, rest⟩⟩
  · rw [hps] at hlen2
    simp at hlen2
  · rw [hps] at hlen2
    simp at hlen2
  · have h1 : p1.edges + 4 ≤ b.edges.length := by
      have h := heb 0
      rw [hps] at h
      simpa using h
    have h2 : p2.edges + 4 ≤ b.edges.length := by
      have h := heb 1
      rw [hps] at h
      simpa using h
    have ht1 := pieceTuple_default b p1 hgs h1
    have ht2 := pieceTuple_default b p2 hgs h2
    unfold Board.check_all_unique
    rw [hps]
    simp only [checkGo]
    rw [ht1, ht2]
    simp

theorem attempt_eq (W H : Nat) (hW : 0 < W) (hH : 0 < H) (bp cp : List Position)
    (rots : Nat → Rotation) :
    attempt W H bp cp rots =
      match (connBoard W H).shuffle bp cp rots with
      | none => none
      | some b2 =>
        match b2.merge_edges with
        | none => none
        | some b3 =>
          match b3.collapse_edges with
          | none => none
          | some (c, b4) => some (b4, c, b4.check_all_unique) := by
  unfold attempt
  rw [(connGrid_spec W H hW hH).1]

theorem attemptFlags_some (W H : Nat) (hW : 0 < W) (hH : 0 < H)
    (bp cp : List Position) (rots : Nat → Rotation) (c u : Bool)
    (h : attemptFlags W H bp cp rots = some (c, u)) :
    ∃ b2 b3 b4 : Board, (connBoard W H).shuffle bp cp rots = some b2 ∧
      b2.merge_edges = some b3 ∧ b3.collapse_edges = some (c, b4) ∧
      u = b4.check_all_unique := by
  unfold attemptFlags at h
  rw [attempt_eq W H hW hH bp cp rots] at h
  split at h
  · exact absurd h (by simp)
  · next b2 heq1 =>
    split at h
    · exact absurd h (by simp)
    · next b3 heq2 =>
      split at h
      · exact absurd h (by simp)
      · next c0 b4 heq3 =>
        simp only [Option.map_some', Option.some.injEq, Prod.mk.injEq] at h
        obtain ⟨hc, hu⟩ := h
        subst hc
        exact ⟨b2, b3, b4, heq1, heq2, heq3, hu.symm⟩

/-- C2: a generation attempt of `main` accepts its board only when both
`collapse_edges` and `check_all_unique` reported success. `main` never reads
the flag returned by `collapse_edges`, but the discard still happens: a
failing collapse returns the board untouched, so every edge still carries
`group = None` and `shape = Flat`, all piece tuples coincide, and
`check_all_unique` rejects the attempt. Hence rejection of the collapse
forces rejection of the attempt, and an accepted board has both flags true. -/
theorem c2_accept_requires_collapse (W H : Nat) (bp cp : List Position)
    (rots : Nat → Rotation) (c u : Bool) (hW : 1 < W) (hH : 1 < H)
    (h : attemptFlags W H bp cp rots = some (c, u)) :
    (c = false → u = false) ∧ (u = true → c = true) := by
  obtain ⟨b2, b3, b4, hsh, hme, hco, hu⟩ :=
    attemptFlags_some W H (by omega) (by omega) bp cp rots c u h
  cases c
  · have hb43 : b4 = b3 := collapse_false_id b3 b4 hco
    subst hb43
    obtain ⟨hpc, hwc, hhc, hlenc, hdef, hconn⟩ :=
      (connGrid_spec W H (by omega) (by omega)).2.1
    obtain ⟨he2, hw2, hh2, hl2, hc2⟩ := shuffle_shuffleInv _ bp cp rots b2 hsh
    obtain ⟨hp3, hw3, hh3, hl3, hgs3⟩ := merge_edges_MInv b2 _ hme
    have hgs : ∀ s : Nat, ((b4.edges.getD s default).group = none ∧
        (b4.edges.getD s default).shape = Shape.Flat) := by
      intro s
      obtain ⟨hg, hsp⟩ := hgs3 s
      rw [hg, hsp, he2]
      exact ⟨(hdef s).1, (hdef s).2.1⟩
    have heb2 : PieceBlocksIn b2 :=
      shuffle_EB _ bp cp rots b2 hsh (connBoard_EB W H hW hH)
    have heb : ∀ i : Nat, (b4.pieces.getD i default).edges + 4 ≤ b4.edges.length := by
      intro i
      rw [hp3, hl3]
      exact heb2 i
    have hlen2 : 2 ≤ b4.pieces.length := by
      rw [hp3, hl2, hpc, init_pieces_length]
      have h4 : 2 * 2 ≤ H * W := Nat.mul_le_mul (by omega) (by omega)
      omega
    have hcf : b4.check_all_unique = false := check_false_of_default b4 hgs heb hlen2
    rw [hcf] at hu
    subst hu
    exact ⟨fun _ => rfl, fun hx => hx⟩
  · exact ⟨fun hx => absurd hx (by simp), fun _ => rfl⟩

theorem c2_witness :
    (1 < 2) ∧ attemptFlags 2 2 [] [] (fun _ => Rotation.R0) = some (true, true) ∧
      ((true = false → true = false) ∧ (true = true → true = true)) :=
  ⟨by decide, by decide,
    c2_accept_requires_collapse 2 2 [] [] (fun _ => Rotation.R0) true true
      (by decide) (by decide) (by decide)⟩

/-! ## Totality of `collapse_edges` on well-formed boards (C9) -/

/-- Executable connection well-formedness: every connection points into the
arena and is symmetric. This is exactly what the pipeline establishes before
`collapse_edges` is reached. -/
def wfConnCheck (b : Board) : Bool :=
  (List.range b.edges.length).all fun s =>
    match b.connAt s with
    | none => true
    | some t => decide (t < b.edges.length) && decide (b.connAt t = some s)

theorem connAt_ge (b : Board) (s : Nat) (hs : b.edges.length ≤ s) :
    b.connAt s = none := by
  unfold Board.connAt
  rw [List.getD_eq_getElem?_getD, List.getElem?_eq_none hs]
  rfl

theorem wfConn_spec (b : Board) (h : wfConnCheck b = true) :
    ∀ s t : Nat, b.connAt s = some t → t < b.edges.length ∧ b.connAt t = some s := by
  intro s t hst
  rcases lt_or_ge s b.edges.length with hs | hs
  · have hall := List.all_eq_true.mp h s (List.mem_range.mpr hs)
    simp only [] at hall
    split at hall
    · next heq =>
      rw [heq] at hst
      exact absurd hst (by simp)
    · next t0 heq =>
      rw [heq] at hst
      simp only [Option.some.injEq] at hst
      subst hst
      simp only [Bool.and_eq_true, decide_eq_true_eq] at hall
      exact hall
  · rw [connAt_ge b s hs] at hst
    exact absurd hst (by simp)

theorem alookup_isSome_append_right {α : Type} (xs ys : List (Nat × α)) (k : Nat)
    (h : (alookup ys k).isSome) : (alookup (xs ++ ys) k).isSome := by
  induction xs with
  | nil => simpa using h
  | cons p rest ih =>
    rw [List.cons_append]
    show (if p.1 = k then some p.2 else alookup (rest ++ ys) k).isSome
    split
    · rfl
    · exact ih

theorem alookup_isSome_append_left {α : Type} (xs ys : List (Nat × α)) (k : Nat)
    (h : (alookup xs k).isSome) : (alookup (xs ++ ys) k).isSome := by
  induction xs with
  | nil => simp [alookup] at h
  | cons p rest ih =>
    rw [List.cons_append]
    show (if p.1 = k then some p.2 else alookup (rest ++ ys) k).isSome
    split
    · rfl
    · apply ih
      have hp : alookup (p :: rest) k = if p.1 = k then some p.2 else alookup rest k := by
        rcases p with ⟨k0, v0⟩
        rfl
      rw [hp] at h
      next hne =>
        rw [if_neg hne] at h
        exact h

theorem alookup_append_or {α : Type} (xs ys : List (Nat × α)) (k : Nat) (v : α)
    (h : alookup (xs ++ ys) k = some v) :
    alookup xs k = some v ∨ alookup ys k = some v := by
  induction xs with
  | nil => exact Or.inr (by simpa using h)
  | cons p rest ih =>
    rw [List.cons_append] at h
    have hh : (if p.1 = k then some p.2 else alookup (rest ++ ys) k) = some v := h
    split at hh
    · next heq =>
      left
      show (if p.1 = k then some p.2 else alookup rest k) = some v
      rw [if_pos heq]
      exact hh
    · next hne =>
      rcases ih hh with h1 | h2
      · left
        show (if p.1 = k then some p.2 else alookup rest k) = some v
        rw [if_neg hne]
        exact h1
      · exact Or.inr h2

theorem alookup_map_pair (c : Nat) :
    ∀ (comp : List Nat) (x : Nat), x ∈ comp →
      alookup (comp.map fun y => (y, c)) x = some c := by
  intro comp
  induction comp with
  | nil => intro x hx; simp at hx
  | cons y rest ih =>
    intro x hx
    rw [List.map_cons]
    show (if y = x then some c else alookup (rest.map fun y => (y, c)) x) = some c
    by_cases hyx : y = x
    · rw [if_pos hyx]
    · rw [if_neg hyx]
      rcases List.mem_cons.mp hx with h1 | h2
      · exact absurd h1.symm hyx
      · exact ih x h2

theorem alookup_map_pair_val (c : Nat) :
    ∀ (comp : List Nat) (k v : Nat),
      alookup (comp.map fun y => (y, c)) k = some v → v = c := by
  intro comp
  induction comp with
  | nil => intro k v h; simp [alookup] at h
  | cons y rest ih =>
    intro k v h
    rw [List.map_cons] at h
    have hh : (if y = k then some c else alookup (rest.map fun y => (y, c)) k) =
        some v := h
    split at hh
    · simp only [Option.some.injEq] at hh
      exact hh.symm
    · exact ih k v hh

theorem mem_fst_alookup {α : Type} (l : List (Nat × α)) (k : Nat)
    (h : k ∈ l.map Prod.fst) : (alookup l k).isSome := by
  induction l with
  | nil => simp at h
  | cons p rest ih =>
    rcases p with ⟨k0, v0⟩
    show (if k0 = k then some v0 else alookup rest k).isSome
    rw [List.map_cons] at h
    rcases List.mem_cons.mp h with h1 | h2
    · rw [if_pos h1.symm]
      rfl
    · split
      · rfl
      · exact ih h2

theorem groupDFS_mono (b : Board) :
    ∀ (fuel : Nat) (stack grp res : List Nat),
      groupDFS b fuel stack grp = some res → ∀ x ∈ grp, x ∈ res := by
  intro fuel
  induction fuel with
  | zero =>
    intro stack grp res h
    simp [groupDFS] at h
  | succ n ih =>
    intro stack grp res h x hx
    obtain _ | ⟨e, stack⟩ := stack
    · simp only [groupDFS, Option.some.injEq] at h
      subst h
      exact hx
    · simp only [groupDFS] at h
      split at h
      · exact ih stack grp res h x hx
      · exact ih _ _ res h x (List.mem_append_left _ hx)

theorem groupDFS_head_mem (b : Board) (fuel : Nat) (e : Nat) (stack grp res : List Nat)
    (h : groupDFS b fuel (e :: stack) grp = some res) : e ∈ res := by
  cases fuel with
  | zero => simp [groupDFS] at h
  | succ n =>
    simp only [groupDFS] at h
    split at h
    · next hmem => exact groupDFS_mono b n stack grp res h e hmem
    · exact groupDFS_mono b n _ _ res h e (List.mem_append_right _ (by simp))

/-- Length of the merge set stored at an arena index. -/
def mergesAt (b : Board) (s : Nat) : Nat :=
  ((b.edges.getD s default).merges).length

/-- Worklist potential of `groupDFS`: one unit plus the merge degree for every
arena index not yet collected. -/
def unseenT (b : Board) (grp : List Nat) : Nat :=
  ((Finset.range b.edges.length).filter fun s => ¬ s ∈ grp).sum
    fun s => 1 + mergesAt b s

theorem sum_range_getD {α : Type} [Inhabited α] (l : List α) (f : α → Nat) :
    ∑ s ∈ Finset.range l.length, f (l.getD s default) = (l.map f).sum := by
  induction l with
  | nil => simp
  | cons a t ih =>
    simp only [List.length_cons]
    rw [Finset.sum_range_succ']
    simp only [List.getD_cons_succ, List.getD_cons_zero, List.map_cons, List.sum_cons]
    rw [ih]
    omega

theorem unseenT_nil (b : Board) :
    unseenT b [] = b.edges.length + (b.edges.map fun e => e.merges.length).sum := by
  unfold unseenT
  have hf : ((Finset.range b.edges.length).filter fun s => ¬ s ∈ ([] : List Nat)) =
      Finset.range b.edges.length := by
    apply Finset.filter_true_of_mem
    intro x _
    simp
  rw [hf, Finset.sum_add_distrib, Finset.sum_const, Finset.card_range, smul_eq_mul,
    mul_one]
  congr 1
  exact sum_range_getD b.edges fun e => e.merges.length

theorem unseenT_append (b : Board) (grp : List Nat) (e : Nat)
    (hlt : e < b.edges.length) (hmem : ¬ e ∈ grp) :
    unseenT b (grp ++ [e]) + (1 + mergesAt b e) = unseenT b grp := by
  unfold unseenT
  have hset : ((Finset.range b.edges.length).filter fun s => ¬ s ∈ grp ++ [e]) =
      ((Finset.range b.edges.length).filter fun s => ¬ s ∈ grp).erase e := by
    ext s
    simp only [Finset.mem_erase, Finset.mem_filter, Finset.mem_range, List.mem_append,
      List.mem_singleton]
    constructor
    · rintro ⟨hs, hng⟩
      exact ⟨fun hse => hng (Or.inr hse), hs, fun hg => hng (Or.inl hg)⟩
    · rintro ⟨hne, hs, hng⟩
      refine ⟨hs, ?_⟩
      rintro (hg | hse)
      · exact hng hg
      · exact hne hse
  rw [hset]
  exact Finset.sum_erase_add _ _ (by simp [Finset.mem_filter, Finset.mem_range, hlt, hmem])

theorem unseenT_append_ge (b : Board) (grp : List Nat) (e : Nat)
    (hge : b.edges.length ≤ e) :
    unseenT b (grp ++ [e]) = unseenT b grp := by
  unfold unseenT
  congr 1
  ext s
  simp only [Finset.mem_filter, Finset.mem_range, List.mem_append, List.mem_singleton]
  constructor
  · rintro ⟨hs, hng⟩
    exact ⟨hs, fun hg => hng (Or.inl hg)⟩
  · rintro ⟨hs, hng⟩
    refine ⟨hs, ?_⟩
    rintro (hg | hse)
    · exact hng hg
    · omega

theorem groupDFS_isSome_of_fuel (b : Board) :
    ∀ (fuel : Nat) (stack grp : List Nat),
      stack.length + unseenT b grp < fuel →
      (groupDFS b fuel stack grp).isSome := by
  intro fuel
  induction fuel with
  | zero =>
    intro stack grp h
    omega
  | succ n ih =>
    intro stack grp h
    obtain _ | ⟨e, stack⟩ := stack
    · simp [groupDFS]
    · simp only [groupDFS]
      split
      · apply ih
        simp only [List.length_cons] at h
        omega
      · next hmem =>
        apply ih
        rw [List.length_append, List.length_reverse]
        simp only [List.length_cons] at h
        rcases lt_or_ge e b.edges.length with he | he
        · have hT := unseenT_append b grp e he hmem
          have hme : ((b.edges.getD e default).merges).length = mergesAt b e := rfl
          omega
        · have hT := unseenT_append_ge b grp e he
          have hm0 : ((b.edges.getD e default).merges).length = 0 := by
            rw [List.getD_eq_getElem?_getD, List.getElem?_eq_none he]
            rfl
          omega

theorem groupDFS_start_isSome (b : Board) (e : Nat) :
    (groupDFS b (groupFuel b) [e] []).isSome := by
  apply groupDFS_isSome_of_fuel
  rw [unseenT_nil]
  unfold groupFuel
  have h1 : ([e] : List Nat).length = 1 := rfl
  omega

/-- Invariant of the first `collapse_edges` loop: the state is live, every
already-scanned connected edge is grouped, and group ids stay in range. -/
def Stage1Inv (b : Board) (processed : List Nat)
    (st : Option (List (Nat × Nat) × List (List Nat))) : Prop :=
  ∃ egm groups, st = some (egm, groups) ∧
    (∀ s ∈ processed, ¬ (b.edges.getD s default).connection = none →
      (alookup egm s).isSome) ∧
    (∀ s v : Nat, alookup egm s = some v → v < groups.length)

theorem stage1_step (b : Board) (processed : List Nat)
    (st : Option (List (Nat × Nat) × List (List Nat))) (ei : Nat)
    (h : Stage1Inv b processed st) :
    Stage1Inv b (processed ++ [ei]) (buildGroupsStep b st ei) := by
  obtain ⟨egm, groups, rfl, hcov, hlt⟩ := h
  simp only [buildGroupsStep]
  split
  · next hnone =>
    refine ⟨egm, groups, rfl, ?_, hlt⟩
    intro s hs hc
    rcases List.mem_append.mp hs with h1 | h2
    · exact hcov s h1 hc
    · rw [List.mem_singleton.mp h2] at hc
      exact absurd hnone hc
  · split
    · next hsome =>
      refine ⟨egm, groups, rfl, ?_, hlt⟩
      intro s hs hc
      rcases List.mem_append.mp hs with h1 | h2
      · exact hcov s h1 hc
      · rw [List.mem_singleton.mp h2]
        exact hsome
    · obtain ⟨comp, hcomp⟩ := Option.isSome_iff_exists.mp (groupDFS_start_isSome b ei)
      rw [hcomp]
      refine ⟨(comp.map fun x => (x, groups.length)) ++ egm, groups ++ [comp], rfl,
        ?_, ?_⟩
      · intro s hs hc
        rcases List.mem_append.mp hs with h1 | h2
        · exact alookup_isSome_append_right _ egm s (hcov s h1 hc)
        · rw [List.mem_singleton.mp h2]
          apply alookup_isSome_append_left
          rw [alookup_map_pair groups.length comp ei
            (groupDFS_head_mem b (groupFuel b) ei [] [] comp hcomp)]
          rfl
      · intro s v hv
        rw [List.length_append, List.length_singleton]
        rcases alookup_append_or _ _ s v hv with h1 | h2
        · have := alookup_map_pair_val groups.length comp s v h1
          omega
        · have := hlt s v h2
          omega

theorem stage1_fold (b : Board) :
    ∀ (l processed : List Nat) (st : Option (List (Nat × Nat) × List (List Nat))),
      Stage1Inv b processed st →
      Stage1Inv b (processed ++ l) (l.foldl (buildGroupsStep b) st) := by
  intro l
  induction l with
  | nil =>
    intro processed st h
    simpa using h
  | cons ei rest ih =>
    intro processed st h
    rw [List.foldl_cons]
    have hstep := stage1_step b processed st ei h
    have hres := ih (processed ++ [ei]) _ hstep
    rw [List.append_assoc] at hres
    simpa using hres

theorem stage1_result (b : Board) :
    ∃ egm groups,
      (List.range b.edges.length).foldl (buildGroupsStep b) (some ([], [])) =
        some (egm, groups) ∧
      (∀ s : Nat, s < b.edges.length → ¬ (b.edges.getD s default).connection = none →
        (alookup egm s).isSome) ∧
      (∀ s v : Nat, alookup egm s = some v → v < groups.length) := by
  have h0 : Stage1Inv b [] (some ([], [])) := by
    refine ⟨[], [], rfl, ?_, ?_⟩
    · intro s hs
      simp at hs
    · intro s v hv
      simp [alookup] at hv
  have hres := stage1_fold b (List.range b.edges.length) [] _ h0
  obtain ⟨egm, groups, heq, hcov, hlt⟩ := hres
  refine ⟨egm, groups, heq, ?_, hlt⟩
  intro s hs hc
  exact hcov s (by simpa using List.mem_range.mpr hs) hc

theorem addGConn_key_isSome (g : List (Nat × List Nat)) (k v : Nat) :
    (alookup (addGConn g k v) k).isSome := by
  induction g with
  | nil =>
    show (if k = k then some [v] else alookup [] k).isSome
    rw [if_pos rfl]
    rfl
  | cons p rest ih =>
    rcases p with ⟨k0, vs0⟩
    simp only [addGConn]
    split
    · next heq =>
      show (if k0 = k then some (if v ∈ vs0 then vs0 else vs0 ++ [v])
        else alookup rest k).isSome
      rw [if_pos heq]
      rfl
    · next hne =>
      show (if k0 = k then some vs0 else alookup (addGConn rest k v) k).isSome
      rw [if_neg hne]
      exact ih

theorem addGConn_preserve (g : List (Nat × List Nat)) (k v k2 : Nat)
    (h : (alookup g k2).isSome) : (alookup (addGConn g k v) k2).isSome := by
  induction g with
  | nil => simp [alookup] at h
  | cons p rest ih =>
    rcases p with ⟨k0, vs0⟩
    have hh : (if k0 = k2 then some vs0 else alookup rest k2).isSome := h
    simp only [addGConn]
    split
    · next heq =>
      show (if k0 = k2 then some (if v ∈ vs0 then vs0 else vs0 ++ [v])
        else alookup rest k2).isSome
      split at hh
      · next he2 =>
        rw [if_pos he2]
        rfl
      · next hn2 =>
        rw [if_neg hn2]
        exact hh
    · next hne =>
      show (if k0 = k2 then some vs0 else alookup (addGConn rest k v) k2).isSome
      split at hh
      · next he2 =>
        rw [if_pos he2]
        rfl
      · next hn2 =>
        rw [if_neg hn2]
        exact ih hh

theorem addGConn_cases (g : List (Nat × List Nat)) (k v k2 : Nat) (vs2 : List Nat)
    (h : alookup (addGConn g k v) k2 = some vs2) :
    ((alookup g k2).isSome ∨ k2 = k) ∧
      ∀ x ∈ vs2, (∃ vs, alookup g k2 = some vs ∧ x ∈ vs) ∨ (k2 = k ∧ x = v) := by
  induction g with
  | nil =>
    have hh : (if k = k2 then some [v] else alookup ([] : List (Nat × List Nat)) k2) =
        some vs2 := h
    split at hh
    · next heq =>
      simp only [Option.some.injEq] at hh
      subst hh
      refine ⟨Or.inr heq.symm, ?_⟩
      intro x hx
      rw [List.mem_singleton] at hx
      exact Or.inr ⟨heq.symm, hx⟩
    · exact absurd hh (by simp [alookup])
  | cons p rest ih =>
    rcases p with ⟨k0, vs0⟩
    simp only [addGConn] at h
    split at h
    · next heq =>
      have hh : (if k0 = k2 then some (if v ∈ vs0 then vs0 else vs0 ++ [v])
          else alookup rest k2) = some vs2 := h
      split at hh
      · next he2 =>
        simp only [Option.some.injEq] at hh
        have hlook : alookup ((k0, vs0) :: rest) k2 = some vs0 := by
          show (if k0 = k2 then some vs0 else alookup rest k2) = some vs0
          rw [if_pos he2]
        refine ⟨Or.inl (by rw [hlook]; rfl), ?_⟩
        intro x hx
        rw [← hh] at hx
        by_cases hv : v ∈ vs0
        · rw [if_pos hv] at hx
          exact Or.inl ⟨vs0, hlook, hx⟩
        · rw [if_neg hv] at hx
          rcases List.mem_append.mp hx with h1 | h2
          · exact Or.inl ⟨vs0, hlook, h1⟩
          · exact Or.inr ⟨he2 ▸ heq, List.mem_singleton.mp h2⟩
      · next hn2 =>
        have hlook : alookup ((k0, vs0) :: rest) k2 = some vs2 := by
          show (if k0 = k2 then some vs0 else alookup rest k2) = some vs2
          rw [if_neg hn2]
          exact hh
        refine ⟨Or.inl (by rw [hlook]; rfl), ?_⟩
        intro x hx
        exact Or.inl ⟨vs2, hlook, hx⟩
    · next hne =>
      have hh : (if k0 = k2 then some vs0 else alookup (addGConn rest k v) k2) =
          some vs2 := h
      split at hh
      · next he2 =>
        simp only [Option.some.injEq] at hh
        have hlook : alookup ((k0, vs0) :: rest) k2 = some vs0 := by
          show (if k0 = k2 then some vs0 else alookup rest k2) = some vs0
          rw [if_pos he2]
        refine ⟨Or.inl (by rw [hlook]; rfl), ?_⟩
        intro x hx
        rw [← hh] at hx
        exact Or.inl ⟨vs0, hlook, hx⟩
      · next hn2 =>
        obtain ⟨hk, hval⟩ := ih hh
        constructor
        · rcases hk with hk1 | hk2
          · left
            show (if k0 = k2 then some vs0 else alookup rest k2).isSome
            rw [if_neg hn2]
            exact hk1
          · exact Or.inr hk2
        · intro x hx
          rcases hval x hx with ⟨vs, hvs, hxvs⟩ | hkr
          · left
            refine ⟨vs, ?_, hxvs⟩
            show (if k0 = k2 then some vs0 else alookup rest k2) = some vs
            rw [if_neg hn2]
            exact hvs
          · exact Or.inr hkr

/-- Invariant of the second `collapse_edges` loop: the state is live, every
scanned connected edge has its group key registered, and every key and
recorded neighbor of the group-connection table is a group of some
connected edge. -/
def Stage2Inv (b : Board) (egm : List (Nat × Nat)) (processed : List Nat)
    (st : Option (List (Nat × List Nat))) : Prop :=
  ∃ g, st = some g ∧
    (∀ s gs : Nat, s ∈ processed → ¬ (b.edges.getD s default).connection = none →
      alookup egm s = some gs → (alookup g gs).isSome) ∧
    (∀ k vs, alookup g k = some vs →
      (∃ s, alookup egm s = some k) ∧
      ∀ v ∈ vs, ∃ ci : Nat, ci < b.edges.length ∧
        ¬ (b.edges.getD ci default).connection = none ∧ alookup egm ci = some v)

theorem stage2_step (b : Board) (egm : List (Nat × Nat))
    (hW : ∀ s t : Nat, b.connAt s = some t → t < b.edges.length ∧ b.connAt t = some s)
    (hcov : ∀ s : Nat, s < b.edges.length →
      ¬ (b.edges.getD s default).connection = none → (alookup egm s).isSome)
    (processed : List Nat) (st : Option (List (Nat × List Nat))) (ei : Nat)
    (hei : ei < b.edges.length)
    (h : Stage2Inv b egm processed st) :
    Stage2Inv b egm (processed ++ [ei]) (buildGConnStep b egm st ei) := by
  obtain ⟨g, rfl, hAcov, hKV⟩ := h
  simp only [buildGConnStep]
  split
  · next heq =>
    refine ⟨g, rfl, ?_, hKV⟩
    intro s gs hs hc hgs
    rcases List.mem_append.mp hs with h1 | h2
    · exact hAcov s gs h1 hc hgs
    · rw [List.mem_singleton.mp h2] at hc
      exact absurd heq hc
  · next ci heq =>
    have hconn : b.connAt ei = some ci := heq
    have hcne : ¬ (b.edges.getD ei default).connection = none := by
      rw [heq]
      simp
    obtain ⟨g1, hg1⟩ := Option.isSome_iff_exists.mp (hcov ei hei hcne)
    obtain ⟨hci_lt, hci_sym⟩ := hW ei ci hconn
    have hci_cne : ¬ (b.edges.getD ci default).connection = none := by
      have hx : (b.edges.getD ci default).connection = some ei := hci_sym
      rw [hx]
      simp
    obtain ⟨g2, hg2⟩ := Option.isSome_iff_exists.mp (hcov ci hci_lt hci_cne)
    rw [hg1, hg2]
    refine ⟨addGConn g g1 g2, rfl, ?_, ?_⟩
    · intro s gs hs hc hgs
      rcases List.mem_append.mp hs with h1 | h2
      · exact addGConn_preserve g g1 g2 gs (hAcov s gs h1 hc hgs)
      · rw [List.mem_singleton.mp h2] at hgs
        rw [hg1] at hgs
        simp only [Option.some.injEq] at hgs
        rw [← hgs]
        exact addGConn_key_isSome g g1 g2
    · intro k vs hvs
      obtain ⟨hk, hval⟩ := addGConn_cases g g1 g2 k vs hvs
      constructor
      · rcases hk with hk1 | hk2
        · obtain ⟨vs0, hvs0⟩ := Option.isSome_iff_exists.mp hk1
          exact (hKV k vs0 hvs0).1
        · exact ⟨ei, hk2 ▸ hg1⟩
      · intro x hx
        rcases hval x hx with ⟨vs0, hvs0, hxvs0⟩ | ⟨hkk, hxv⟩
        · exact (hKV k vs0 hvs0).2 x hxvs0
        · exact ⟨ci, hci_lt, hci_cne, hxv ▸ hg2⟩

theorem stage2_fold (b : Board) (egm : List (Nat × Nat))
    (hW : ∀ s t : Nat, b.connAt s = some t → t < b.edges.length ∧ b.connAt t = some s)
    (hcov : ∀ s : Nat, s < b.edges.length →
      ¬ (b.edges.getD s default).connection = none → (alookup egm s).isSome) :
    ∀ (l processed : List Nat) (st : Option (List (Nat × List Nat))),
      (∀ x ∈ l, x < b.edges.length) →
      Stage2Inv b egm processed st →
      Stage2Inv b egm (processed ++ l) (l.foldl (buildGConnStep b egm) st) := by
  intro l
  induction l with
  | nil =>
    intro processed st hl h
    simpa using h
  | cons ei rest ih =>
    intro processed st hl h
    rw [List.foldl_cons]
    have hstep := stage2_step b egm hW hcov processed st ei (hl ei (by simp)) h
    have hres := ih (processed ++ [ei]) _ (fun x hx => hl x (by simp [hx])) hstep
    rw [List.append_assoc] at hres
    simpa using hres

theorem stage2_result (b : Board) (egm : List (Nat × Nat)) (groups : List (List Nat))
    (hW : ∀ s t : Nat, b.connAt s = some t → t < b.edges.length ∧ b.connAt t = some s)
    (hcov : ∀ s : Nat, s < b.edges.length →
      ¬ (b.edges.getD s default).connection = none → (alookup egm s).isSome)
    (hlt : ∀ s v : Nat, alookup egm s = some v → v < groups.length) :
    ∃ gconn,
      (List.range b.edges.length).foldl (buildGConnStep b egm) (some []) = some gconn ∧
      (∀ k vs, alookup gconn k = some vs → ∀ v ∈ vs, (alookup gconn v).isSome) ∧
      (∀ k : Nat, (alookup gconn k).isSome → k < groups.length) := by
  have h0 : Stage2Inv b egm [] (some []) := by
    refine ⟨[], rfl, ?_, ?_⟩
    · intro s gs hs
      simp at hs
    · intro k vs hvs
      simp [alookup] at hvs
  have hres := stage2_fold b egm hW hcov (List.range b.edges.length) [] _
    (fun x hx => List.mem_range.mp hx) h0
  obtain ⟨gconn, heq, hAcov, hKV⟩ := hres
  refine ⟨gconn, heq, ?_, ?_⟩
  · intro k vs hvs v hv
    obtain ⟨ci, hci_lt, hci_cne, hci_egm⟩ := (hKV k vs hvs).2 v hv
    exact hAcov ci v (by simpa using List.mem_range.mpr hci_lt) hci_cne hci_egm
  · intro k hk
    obtain ⟨vs, hvs⟩ := Option.isSome_iff_exists.mp hk
    obtain ⟨s, hs⟩ := (hKV k vs hvs).1
    exact hlt s k hs

/-- Worklist potential of `bipartDFS`: one unit plus the neighbor-list length
for every group-connection entry whose key is not yet seen. -/
def bipartT (gconn : List (Nat × List Nat)) (seen : List Nat) : Nat :=
  ((gconn.filter fun kv => ¬ kv.1 ∈ seen).map fun kv => 1 + kv.2.length).sum

theorem bipartT_sum_mono (l : List (Nat × List Nat)) (seen extra : List Nat) :
    ((l.filter fun kv => ¬ kv.1 ∈ seen ++ extra).map fun kv => 1 + kv.2.length).sum ≤
      ((l.filter fun kv => ¬ kv.1 ∈ seen).map fun kv => 1 + kv.2.length).sum := by
  induction l with
  | nil => simp
  | cons kv rest ih =>
    by_cases h2 : kv.1 ∈ seen
    · have h1 : kv.1 ∈ seen ++ extra := List.mem_append_left _ h2
      rw [List.filter_cons_of_neg (by simp [h1]), List.filter_cons_of_neg (by simp [h2])]
      exact ih
    · by_cases h1 : kv.1 ∈ seen ++ extra
      · rw [List.filter_cons_of_neg (by simp [h1]),
          List.filter_cons_of_pos (by simp [h2])]
        simp only [List.map_cons, List.sum_cons]
        omega
      · rw [List.filter_cons_of_pos (by simp [h1]),
          List.filter_cons_of_pos (by simp [h2])]
        simp only [List.map_cons, List.sum_cons]
        omega

theorem bipartT_nil (gconn : List (Nat × List Nat)) :
    bipartT gconn [] = gconn.length + (gconn.map fun kv => kv.2.length).sum := by
  induction gconn with
  | nil => rfl
  | cons kv rest ih =>
    unfold bipartT at ih ⊢
    rw [List.filter_cons_of_pos (by simp)]
    simp only [List.map_cons, List.sum_cons, List.length_cons]
    omega

theorem bipartT_expand (gconn : List (Nat × List Nat)) (seen : List Nat) (gid : Nat)
    (nbrs : List Nat) (hl : alookup gconn gid = some nbrs) (hns : ¬ gid ∈ seen) :
    bipartT gconn (seen ++ [gid]) + (1 + nbrs.length) ≤ bipartT gconn seen := by
  induction gconn with
  | nil => simp [alookup] at hl
  | cons kv rest ih =>
    rcases kv with ⟨k0, vs0⟩
    have hh : (if k0 = gid then some vs0 else alookup rest gid) = some nbrs := hl
    unfold bipartT
    split at hh
    · next heq =>
      simp only [Option.some.injEq] at hh
      subst hh
      rw [List.filter_cons_of_neg (by simp [heq]),
        List.filter_cons_of_pos (by simp [heq, hns])]
      simp only [List.map_cons, List.sum_cons]
      have hmono := bipartT_sum_mono rest seen [gid]
      omega
    · next hne =>
      have hrec := ih hh
      unfold bipartT at hrec
      by_cases h2 : k0 ∈ seen
      · have h1 : k0 ∈ seen ++ [gid] := List.mem_append_left _ h2
        rw [List.filter_cons_of_neg (by simp [h1]),
          List.filter_cons_of_neg (by simp [h2])]
        exact hrec
      · by_cases h1 : k0 ∈ seen ++ [gid]
        · rcases List.mem_append.mp h1 with ha | hb
          · exact absurd ha h2
          · exact absurd (List.mem_singleton.mp hb) hne
        · rw [List.filter_cons_of_pos (by simp [h1]),
            List.filter_cons_of_pos (by simp [h2])]
          simp only [List.map_cons, List.sum_cons]
          omega

theorem bipartDFS_isSome_of_fuel (gconn : List (Nat × List Nat))
    (VK : ∀ k vs, alookup gconn k = some vs → ∀ v ∈ vs, (alookup gconn v).isSome) :
    ∀ (fuel : Nat) (ggm : List (Nat × Nat)) (stack : List (Nat × Nat))
      (seen : List Nat) (layers : List (Nat × Nat)),
      (∀ x ∈ stack, (alookup gconn x.1).isSome) →
      stack.length + bipartT gconn seen < fuel →
      (bipartDFS gconn ggm fuel stack seen layers).isSome := by
  intro fuel
  induction fuel with
  | zero =>
    intro ggm stack seen layers hstack h
    omega
  | succ n ih =>
    intro ggm stack seen layers hstack h
    obtain _ | ⟨⟨gid, depth⟩, stack⟩ := stack
    · simp [bipartDFS]
    · simp only [bipartDFS]
      split
      · refine ih _ _ _ _ (fun x hx => hstack x (List.mem_cons_of_mem _ hx)) ?_
        simp only [List.length_cons] at h
        omega
      · split
        · refine ih _ _ _ _ (fun x hx => hstack x (List.mem_cons_of_mem _ hx)) ?_
          simp only [List.length_cons] at h
          omega
        · next hseen =>
          have hkey : (alookup gconn gid).isSome := hstack (gid, depth) (by simp)
          obtain ⟨nbrs, hnb⟩ := Option.isSome_iff_exists.mp hkey
          rw [hnb]
          refine ih _ _ _ _ ?_ ?_
          · intro x hx
            rcases List.mem_append.mp hx with h1 | h2
            · rw [List.mem_reverse] at h1
              obtain ⟨c, hc, rfl⟩ := List.mem_map.mp h1
              exact VK gid nbrs hnb c hc
            · exact hstack x (List.mem_cons_of_mem _ h2)
          · rw [List.length_append, List.length_reverse, List.length_map]
            simp only [List.length_cons] at h
            have hexp := bipartT_expand gconn seen gid nbrs hnb hseen
            omega

theorem bipartDFS_layers_keys (gconn : List (Nat × List Nat))
    (VK : ∀ k vs, alookup gconn k = some vs → ∀ v ∈ vs, (alookup gconn v).isSome) :
    ∀ (fuel : Nat) (ggm : List (Nat × Nat)) (stack : List (Nat × Nat))
      (seen : List Nat) (layers res : List (Nat × Nat)),
      bipartDFS gconn ggm fuel stack seen layers = some res →
      (∀ x ∈ stack, (alookup gconn x.1).isSome) →
      (∀ y ∈ layers, (alookup gconn y.2).isSome) →
      ∀ y ∈ res, (alookup gconn y.2).isSome := by
  intro fuel
  induction fuel with
  | zero =>
    intro ggm stack seen layers res h
    simp [bipartDFS] at h
  | succ n ih =>
    intro ggm stack seen layers res h hstack hlay
    obtain _ | ⟨⟨gid, depth⟩, stack⟩ := stack
    · simp only [bipartDFS, Option.some.injEq] at h
      subst h
      exact hlay
    · simp only [bipartDFS] at h
      split at h
      · exact ih _ _ _ _ res h (fun x hx => hstack x (List.mem_cons_of_mem _ hx)) hlay
      · split at h
        · exact ih _ _ _ _ res h
            (fun x hx => hstack x (List.mem_cons_of_mem _ hx)) hlay
        · have hkey : (alookup gconn gid).isSome := hstack (gid, depth) (by simp)
          obtain ⟨nbrs, hnb⟩ := Option.isSome_iff_exists.mp hkey
          rw [hnb] at h
          refine ih _ _ _ _ res h ?_ ?_
          · intro x hx
            rcases List.mem_append.mp hx with h1 | h2
            · rw [List.mem_reverse] at h1
              obtain ⟨c, hc, rfl⟩ := List.mem_map.mp h1
              exact VK gid nbrs hnb c hc
            · exact hstack x (List.mem_cons_of_mem _ h2)
          · intro y hy
            rcases List.mem_append.mp hy with h1 | h2
            · exact hlay y h1
            · rw [List.mem_singleton.mp h2]
              exact hkey

theorem bipartLoopStep_true_eq (gconn : List (Nat × List Nat))
    (ggm : List (Nat × Nat)) (ggs : List (List Nat × Shape)) (gid : Nat)
    (layers : List (Nat × Nat))
    (hskip : ¬ (alookup ggm gid).isSome)
    (hdl : bipartDFS gconn ggm (bipartFuel gconn) [(gid, 0)] [] [] = some layers) :
    bipartLoopStep gconn (some (true, ggm, ggs)) gid =
      if ((layers.filter fun x => x.1 % 2 = 0).map Prod.snd).any
          (fun g => g ∈ (layers.filter fun x => x.1 % 2 = 1).map Prod.snd) then
        some (false, ggm, ggs)
      else
        some (true,
          ((((layers.filter fun x => x.1 % 2 = 1).map Prod.snd).map
            fun g => (g, ggs.length + 1)) ++
            ((((layers.filter fun x => x.1 % 2 = 0).map Prod.snd).map
              fun g => (g, ggs.length)) ++ ggm)),
          ggs ++ [(((layers.filter fun x => x.1 % 2 = 0).map Prod.snd), Shape.Knob),
            (((layers.filter fun x => x.1 % 2 = 1).map Prod.snd), Shape.Socket)]) := by
  simp only [bipartLoopStep]
  rw [if_neg hskip, hdl]

/-- Invariant of the third `collapse_edges` loop: the state is live and every
group id recorded in a group-group is a key of the connection table. -/
def Stage3Inv (gconn : List (Nat × List Nat))
    (st : Option (Bool × List (Nat × Nat) × List (List Nat × Shape))) : Prop :=
  ∃ flag ggm ggs, st = some (flag, ggm, ggs) ∧
    ∀ e ∈ ggs, ∀ g ∈ e.1, (alookup gconn g).isSome

theorem stage3_step (gconn : List (Nat × List Nat))
    (VK : ∀ k vs, alookup gconn k = some vs → ∀ v ∈ vs, (alookup gconn v).isSome)
    (st : Option (Bool × List (Nat × Nat) × List (List Nat × Shape))) (gid : Nat)
    (hgid : (alookup gconn gid).isSome)
    (h : Stage3Inv gconn st) : Stage3Inv gconn (bipartLoopStep gconn st gid) := by
  obtain ⟨flag, ggm, ggs, rfl, hggs⟩ := h
  cases flag
  · exact ⟨false, ggm, ggs, rfl, hggs⟩
  · by_cases hskip : (alookup ggm gid).isSome
    · refine ⟨true, ggm, ggs, ?_, hggs⟩
      simp only [bipartLoopStep]
      rw [if_pos hskip]
    · obtain ⟨layers, hdl⟩ := Option.isSome_iff_exists.mp
        (bipartDFS_isSome_of_fuel gconn VK (bipartFuel gconn) ggm [(gid, 0)] [] []
          (by
            intro x hx
            rw [List.mem_singleton.mp hx]
            exact hgid)
          (by
            have h1 : ([((gid : Nat), (0 : Nat))] : List (Nat × Nat)).length = 1 := rfl
            have h2 := bipartT_nil gconn
            unfold bipartFuel
            omega))
      rw [bipartLoopStep_true_eq gconn ggm ggs gid layers hskip hdl]
      split
      · exact ⟨false, ggm, ggs, rfl, hggs⟩
      · refine ⟨true, _, _, rfl, ?_⟩
        intro e he g hg
        have hlk := bipartDFS_layers_keys gconn VK (bipartFuel gconn) ggm
          [(gid, 0)] [] [] layers hdl
          (by
            intro x hx
            rw [List.mem_singleton.mp hx]
            exact hgid)
          (by
            intro y hy
            simp at hy)
        rcases List.mem_append.mp he with h1 | h2
        · exact hggs e h1 g hg
        · rcases List.mem_cons.mp h2 with he1 | h2b
          · rw [he1] at hg
            obtain ⟨y, hy, rfl⟩ := List.mem_map.mp hg
            exact hlk y (List.mem_of_mem_filter hy)
          · rcases List.mem_cons.mp h2b with he2 | h2c
            · rw [he2] at hg
              obtain ⟨y, hy, rfl⟩ := List.mem_map.mp hg
              exact hlk y (List.mem_of_mem_filter hy)
            · simp at h2c

theorem stage3_fold (gconn : List (Nat × List Nat))
    (VK : ∀ k vs, alookup gconn k = some vs → ∀ v ∈ vs, (alookup gconn v).isSome) :
    ∀ (l : List Nat) (st : Option (Bool × List (Nat × Nat) × List (List Nat × Shape))),
      (∀ g ∈ l, (alookup gconn g).isSome) →
      Stage3Inv gconn st → Stage3Inv gconn (l.foldl (bipartLoopStep gconn) st) := by
  intro l
  induction l with
  | nil =>
    intro st hl h
    simpa using h
  | cons gid rest ih =>
    intro st hl h
    rw [List.foldl_cons]
    exact ih _ (fun x hx => hl x (by simp [hx]))
      (stage3_step gconn VK st gid (hl gid (by simp)) h)

theorem stage3_result (gconn : List (Nat × List Nat))
    (VK : ∀ k vs, alookup gconn k = some vs → ∀ v ∈ vs, (alookup gconn v).isSome) :
    ∃ flag ggm ggs,
      (gconn.map Prod.fst).foldl (bipartLoopStep gconn) (some (true, [], [])) =
        some (flag, ggm, ggs) ∧
      ∀ e ∈ ggs, ∀ g ∈ e.1, (alookup gconn g).isSome := by
  have h0 : Stage3Inv gconn (some (true, [], [])) := by
    refine ⟨true, [], [], rfl, ?_⟩
    intro e he
    simp at he
  exact stage3_fold gconn VK (gconn.map Prod.fst) _
    (fun g hg => mem_fst_alookup gconn g hg) h0

theorem writeGList_isSome (groups : List (List Nat)) (half : Nat) (shape : Shape) :
    ∀ (gids : List Nat) (bd : Board), (∀ g ∈ gids, g < groups.length) →
      (writeGList groups half shape bd gids).isSome := by
  intro gids
  induction gids with
  | nil =>
    intro bd hg
    simp [writeGList]
  | cons g rest ih =>
    intro bd hg
    simp only [writeGList]
    have hlt : g < groups.length := hg g (by simp)
    have hsome : groups.get? g = some (groups.get ⟨g, hlt⟩) := by
      rw [List.get?_eq_get hlt]
    rw [hsome]
    exact ih _ (fun x hx => hg x (by simp [hx]))

theorem writeGG_isSome (groups : List (List Nat)) :
    ∀ (ggs : List (List Nat × Shape)) (bd : Board) (ggId : Nat),
      (∀ e ∈ ggs, ∀ g ∈ e.1, g < groups.length) →
      (writeGG groups bd ggId ggs).isSome := by
  intro ggs
  induction ggs with
  | nil =>
    intro bd ggId h
    simp [writeGG]
  | cons e rest ih =>
    intro bd ggId h
    rcases e with ⟨gids, shape⟩
    simp only [writeGG]
    obtain ⟨bd1, hbd1⟩ := Option.isSome_iff_exists.mp
      (writeGList_isSome groups (ggId / 2) shape gids bd
        (fun g hg => h (gids, shape) (by simp) g hg))
    rw [hbd1]
    exact ih bd1 (ggId + 1) (fun x hx => h x (by simp [hx]))

theorem collapse_eq (b : Board) (egm : List (Nat × Nat)) (groups : List (List Nat))
    (h1 : (List.range b.edges.length).foldl (buildGroupsStep b) (some ([], [])) =
      some (egm, groups)) :
    b.collapse_edges =
      match (List.range b.edges.length).foldl (buildGConnStep b egm) (some []) with
      | none => none
      | some gconn =>
        match (gconn.map Prod.fst).foldl (bipartLoopStep gconn)
            (some (true, [], [])) with
        | none => none
        | some (false, _, _) => some (false, b)
        | some (true, _, ggs) =>
          match writeGG groups b 0 ggs with
          | none => none
          | some b2 => some (true, b2) := by
  unfold Board.collapse_edges
  rw [h1]

/-- C9: on a board whose connections are in-range and symmetric — which is
what the pipeline guarantees by the time `main` reaches this call —
`collapse_edges` cannot raise: every run returns a value, so a non-bipartite
arrangement could only ever be reported through the `False` return; and a
failing run returns the board exactly as it was, with every edge's `group`
and `shape` untouched, because the write-out phase runs only on success. -/
theorem c9_collapse_total (b : Board) (hwf : wfConnCheck b = true) :
    (b.collapse_edges).isSome ∧
      ∀ r : Board, b.collapse_edges = some (false, r) → r = b := by
  refine ⟨?_, fun r hr => collapse_false_id b r hr⟩
  have hW := wfConn_spec b hwf
  obtain ⟨egm, groups, h1, hcov, hlt⟩ := stage1_result b
  obtain ⟨gconn, h2, VK, hkb⟩ := stage2_result b egm groups hW hcov hlt
  obtain ⟨flag, ggm, ggs, h3, hkeys⟩ := stage3_result gconn VK
  rw [collapse_eq b egm groups h1, h2]
  show (match (gconn.map Prod.fst).foldl (bipartLoopStep gconn)
      (some (true, [], [])) with
    | none => none
    | some (false, _, _) => some (false, b)
    | some (true, _, ggs) =>
      match writeGG groups b 0 ggs with
      | none => none
      | some b2 => some (true, b2)).isSome
  rw [h3]
  cases flag
  · rfl
  · show (match writeGG groups b 0 ggs with
      | none => none
      | some b2 => some (true, b2)).isSome
    have hlt2 : ∀ e ∈ ggs, ∀ g ∈ e.1, g < groups.length :=
      fun e he g hg => hkb g (hkeys e he g hg)
    obtain ⟨b2, hb2⟩ := Option.isSome_iff_exists.mp (writeGG_isSome groups ggs b 0 hlt2)
    rw [hb2]
    rfl

theorem c9_witness :
    wfConnCheck (connBoard 2 2) = true ∧
      ((connBoard 2 2).collapse_edges).isSome ∧
      ∀ r : Board, (connBoard 2 2).collapse_edges = some (false, r) →
        r = connBoard 2 2 :=
  ⟨by decide, c9_collapse_total (connBoard 2 2) (by decide)⟩

end NJigsaw
